import Mathlib

/-!
# gen-books: page traversal, cover staging and worker sizing

A verification development for `cmd/gen-books/main.go`.  The functions embedded
here are `iterPages`, `shouldCopyImage`, `copyFilesRecur`, `copyCoversMust` and
`getAlmostMaxProcs`.
-/

namespace GenBooks

/-! ## Pages and books -/

/-- A page object as `iterPages` sees it: `ID` is `page.NotionPage.ID` and
`Pages` holds the `*Page` pointers of `page.Pages`, each pointer being an address
into the memory that holds the pages. -/
structure Page where
  ID : String
  Pages : List Nat
deriving DecidableEq, Repr

/-- A book as `iterPages` sees it.  `mem` is the memory holding the page objects
when `iterPages` is called; the pointer `p` denotes the object `mem[p]`, and a
pointer outside `mem` is a nil pointer.  `RootPage` is `book.RootPage`. -/
structure Book where
  mem : List Page
  RootPage : Nat
deriving Repr

/-- How a run of `iterPages` stands after the loop iterations it was allowed: the
queue ran empty (`finished`), the callback returned false (`stopped`), a nil page
pointer was dereferenced and the Go runtime raised a run-time error (`nilDeref`),
or the loop has not ended yet (`unfinished`). -/
inductive Outcome where
  | finished
  | stopped
  | nilDeref
  | unfinished
deriving DecidableEq, Repr

/-- What a call `onPage(page)` does: it returns the `shouldContinue` flag, leaves
its own state behind, and, holding pointers to the pages, leaves the memory of the
pages as it pleases. -/
structure Reply (σ : Type) where
  shouldContinue : Bool
  state : σ
  mem : List Page

/-- What is observed of a run of `iterPages`: the pages handed to `onPage`, in
call order, the state the callback is left in, the memory of the pages as the
callbacks left it, and how the run stands. -/
structure Run (σ : Type) where
  calls : List Nat
  state : σ
  mem : List Page
  outcome : Outcome

/-- Record one more call to `onPage` in front of the calls of the rest of a run. -/
def Run.addCall {σ : Type} (p : Nat) (r : Run σ) : Run σ :=
  ⟨p :: r.calls, r.state, r.mem, r.outcome⟩

/-- The `for len(toProcess) > 0` loop of `iterPages`.  `mem` is the memory of the
pages as it stands, `processed` holds the keys of the Go map `processed` (all
mapped to `true`), `toProcess` is the queue, `s` the state of the callback.  Each
iteration reads `page.NotionPage.ID` and `page.Pages` from the memory as the
earlier callbacks left it, and appends the links to the queue before it calls
`onPage`.  One unit of fuel pays for one execution of the loop body. -/
def iterLoop {σ : Type} (normalizeID : String → String)
    (onPage : σ → List Page → Nat → Reply σ) :
    Nat → List Page → List String → List Nat → σ → Run σ
  | _, mem, _, [], s => ⟨[], s, mem, Outcome.finished⟩
  | 0, mem, _, _ :: _, s => ⟨[], s, mem, Outcome.unfinished⟩
  | fuel + 1, mem, processed, page :: toProcess, s =>
    match mem[page]? with
    | none => ⟨[], s, mem, Outcome.nilDeref⟩
    | some pg =>
      let id := normalizeID pg.ID
      if processed.contains id then
        iterLoop normalizeID onPage fuel mem processed toProcess s
      else
        let reply := onPage s mem page
        if reply.shouldContinue then
          (iterLoop normalizeID onPage fuel reply.mem (id :: processed) (toProcess ++ pg.Pages)
            reply.state).addCall page
        else
          ⟨[page], reply.state, reply.mem, Outcome.stopped⟩

/-- `iterPages(book, onPage)`, allowed `fuel` iterations of its loop.  The callback
is a function of its own state, the memory of the pages and the page it is given. -/
def iterPages {σ : Type} (normalizeID : String → String) (book : Book)
    (onPage : σ → List Page → Nat → Reply σ) (fuel : Nat) (s : σ) : Run σ :=
  iterLoop normalizeID onPage fuel book.mem [] [book.RootPage] s

/-- Number of `Page.Pages` links stored in a memory. -/
def linkCount (mem : List Page) : Nat :=
  (mem.map (fun pg => pg.Pages.length)).sum

/-- The callback that always returns true, keeps no state and leaves the pages
alone. -/
def alwaysContinue : Unit → List Page → Nat → Reply Unit :=
  fun _ mem _ => ⟨true, (), mem⟩

/-- The callback leaves the pages alone: it changes no identifier, no `Pages` list
and adds no page. -/
def LeavesPages {σ : Type} (onPage : σ → List Page → Nat → Reply σ) : Prop :=
  ∀ s mem p, (onPage s mem p).mem = mem

/-- Every page object of `mem` is still there in `mem2`, with the identifier it
had. -/
def IDsKept (mem mem2 : List Page) : Prop :=
  ∀ (q : Nat) (pg : Page), mem[q]? = some pg → ∃ pg2 : Page, mem2[q]? = some pg2 ∧ pg2.ID = pg.ID

/-- The callback never changes the `NotionPage.ID` of a page; it may change
`Pages` lists and add pages. -/
def KeepsIDs {σ : Type} (onPage : σ → List Page → Nat → Reply σ) : Prop :=
  ∀ s mem p, IDsKept mem (onPage s mem p).mem

/-- The callback always returns true. -/
def AlwaysContinues {σ : Type} (onPage : σ → List Page → Nat → Reply σ) : Prop :=
  ∀ s mem p, (onPage s mem p).shouldContinue = true

/-- The value of Go's 64-bit `int` that an arithmetic result wraps around to. -/
def wrapInt64 (x : Int) : Int :=
  (x + 2 ^ 63) % 2 ^ 64 - 2 ^ 63

/-- `getAlmostMaxProcs()`, as a function of the value `runtime.NumCPU()` returns. -/
def getAlmostMaxProcs (numCPU : Int) : Int :=
  let nProcs := wrapInt64 (numCPU - 2)
  if nProcs < 1 then 1 else nProcs

/-- Normalized identifier of the page a pointer denotes, `none` for a nil pointer. -/
def pageKey (normalizeID : String → String) (mem : List Page) (p : Nat) : Option String :=
  (mem[p]?).map (fun pg => normalizeID pg.ID)

/-- The links of the page a pointer denotes, none for a nil pointer. -/
def pagesOf (mem : List Page) (p : Nat) : List Nat :=
  match mem[p]? with
  | some pg => pg.Pages
  | none => []

/-- Links that may still enter the queue: those of the page objects whose
normalized identifier is not yet marked in `processed`. -/
def pendingLinks (normalizeID : String → String) (processed : List String) (mem : List Page) : Nat :=
  (mem.map (fun pg => if processed.contains (normalizeID pg.ID) then 0 else pg.Pages.length)).sum

/-- The quantity that drops with every iteration of the loop of `iterPages` when
the callback leaves the pages alone. -/
def loopMeasure (normalizeID : String → String) (mem : List Page) (processed : List String)
    (toProcess : List Nat) : Nat :=
  toProcess.length + pendingLinks normalizeID processed mem

/-- The pages the callback receives when it is fed the pages of `full` in order
and nothing is handed to it after its first rejection. -/
def stopAtFirstReject {σ : Type} (onPage : σ → List Page → Nat → Reply σ) (mem : List Page) :
    σ → List Nat → List Nat
  | _, [] => []
  | s, p :: rest =>
    if (onPage s mem p).shouldContinue then
      p :: stopAtFirstReject onPage mem (onPage s mem p).state rest
    else [p]

/-- The first occurrences of the pages of a sequence, in order, leaving out the
pages of `seen`. -/
def firstsAux : List Nat → List Nat → List Nat
  | _, [] => []
  | seen, x :: l => if x ∈ seen then firstsAux seen l else x :: firstsAux (x :: seen) l

/-- The first occurrences of the pages of a sequence, in order. -/
def firstOccurrences (l : List Nat) : List Nat :=
  firstsAux [] l

/-- The page graph A → B, A → C, B → D with the back link B → A. -/
def bookABCD : Book :=
  ⟨[⟨"A", [1, 2]⟩, ⟨"B", [3, 0]⟩, ⟨"C", []⟩, ⟨"D", []⟩], 0⟩

/-- The page graph A → B → A. -/
def bookCycle : Book :=
  ⟨[⟨"A", [1]⟩, ⟨"B", [0]⟩], 0⟩

/-- The memory after `page.NotionPage.ID = f(page.NotionPage.ID)` for the page `p`. -/
def mapID (f : String → String) : List Page → Nat → List Page
  | [], _ => []
  | pg :: rest, 0 => ⟨f pg.ID, pg.Pages⟩ :: rest
  | pg :: rest, p + 1 => pg :: mapID f rest p

/-- A callback that always returns true and, the first time it is given a page,
renames it by appending `2` to its identifier; its state is the list of the pages
it has renamed. -/
def renameOnce : List Nat → List Page → Nat → Reply (List Nat) :=
  fun renamed mem p =>
    if p ∈ renamed then ⟨true, renamed, mem⟩
    else ⟨true, p :: renamed, mapID (fun i => i ++ "2") mem p⟩

/-- `PathLen mem a b n`: following `n` links of `Page.Pages`, each out of a page
object, leads from the page `a` to the page `b`. -/
inductive PathLen (mem : List Page) : Nat → Nat → Nat → Prop where
  | here (a : Nat) : PathLen mem a a 0
  | link {a b c n : Nat} {pg : Page} :
      mem[a]? = some pg → b ∈ pg.Pages → PathLen mem b c n → PathLen mem a c (n + 1)

/-- The page `b` is reachable from the page `a` through `Page.Pages` links. -/
def Reachable (mem : List Page) (a b : Nat) : Prop :=
  ∃ n, PathLen mem a b n

/-- `d` is the length of the shortest `Page.Pages` path from `a` to `b`. -/
def IsDist (mem : List Page) (a b d : Nat) : Prop :=
  PathLen mem a b d ∧ ∀ n, PathLen mem a b n → d ≤ n

/-- The memory of the book holds a page structure: the root pointer and every
pointer reachable from it through `Page.Pages` links denote page objects, none is
nil. -/
def IsPageStructure (book : Book) : Prop :=
  ∀ p, Reachable book.mem book.RootPage p → ∃ pg, book.mem[p]? = some pg

/-- Distinct pages of the book have distinct normalized identifiers. -/
def DistinctIDs (normalizeID : String → String) (book : Book) : Prop :=
  ∀ p q pgp pgq, Reachable book.mem book.RootPage p → Reachable book.mem book.RootPage q →
    book.mem[p]? = some pgp → book.mem[q]? = some pgq →
    normalizeID pgp.ID = normalizeID pgq.ID → p = q

/-- A path of `n` links from `a` to `b` all of whose pages, end points included,
are page objects with a normalized identifier outside `processed`. -/
inductive AvoidPath (normalizeID : String → String) (mem : List Page)
    (processed : List String) : Nat → Nat → Nat → Prop where
  | here {a : Nat} {pg : Page} :
      mem[a]? = some pg → normalizeID pg.ID ∉ processed →
      AvoidPath normalizeID mem processed a a 0
  | link {a b c n : Nat} {pg : Page} :
      mem[a]? = some pg → normalizeID pg.ID ∉ processed → b ∈ pg.Pages →
      AvoidPath normalizeID mem processed b c n →
      AvoidPath normalizeID mem processed a c (n + 1)

/-- The loop of `iterPages` run on an unchanging memory with a callback that
always returns true, on a queue whose entries carry, next to the page, the number
of links followed from the root to enqueue it.  It returns the calls with these
numbers. -/
def levelLoop (normalizeID : String → String) (mem : List Page) :
    Nat → List String → List (Nat × Nat) → List (Nat × Nat)
  | _, _, [] => []
  | 0, _, _ :: _ => []
  | fuel + 1, processed, (page, lv) :: toProcess =>
    match mem[page]? with
    | none => []
    | some pg =>
      if normalizeID pg.ID ∈ processed then
        levelLoop normalizeID mem fuel processed toProcess
      else
        (page, lv) :: levelLoop normalizeID mem fuel (normalizeID pg.ID :: processed)
          (toProcess ++ pg.Pages.map (fun c => (c, lv + 1)))

/-- The link counts of a queue never decrease and stay within `lo` and `lo + 1`. -/
def LevelQueue (lo : Nat) (q : List (Nat × Nat)) : Prop :=
  (q.map Prod.snd).Pairwise (fun a b => a ≤ b) ∧ ∀ l ∈ q.map Prod.snd, lo ≤ l ∧ l ≤ lo + 1

/-- The root pointer and every link stored in the memory of the book point into
the memory. -/
def Book.Closed (book : Book) : Prop :=
  book.RootPage < book.mem.length ∧ ∀ pg ∈ book.mem, ∀ c ∈ pg.Pages, c < book.mem.length

instance (book : Book) : Decidable book.Closed := by
  unfold Book.Closed
  infer_instance

/-! ## Files and directories -/

/-- A path in the clean form `filepath.Join` returns, given by the list of its
components with the innermost one first: `["a.png", "covers", "www"]` is
`www/covers/a.png` and `[]` is the directory the relative paths start from.  The
components are names of directory entries, so `filepath.Join(dir, name)` is
`name :: dir` and the parent of `name :: dir` is `dir`. -/
abbrev Path := List String

/-- `filepath.Join(dir, name)` for a directory path and the name of one of its
entries. -/
def joinPath (dir : Path) (name : String) : Path :=
  name :: dir

/-- The string a path is written as, which is what the filter predicate of
`copyFilesRecur` receives: the components from the outermost to the innermost,
separated by `/`. -/
def pathString : Path → String
  | [] => ""
  | [name] => name
  | name :: parent :: up => pathString (parent :: up) ++ "/" ++ name

/-- What a path of the file system holds: a regular file with its bytes, or a
directory with the names of its entries in the order `ioutil.ReadDir` lists them. -/
inductive Node where
  | file (data : List Nat)
  | dir (names : List String)
deriving DecidableEq, Repr

/-- A state of the file system: what each path holds, `none` where nothing exists. -/
abbrev FS := Path → Option Node

/-- The file system with `node` stored at `p`. -/
def FS.set (fs : FS) (p : Path) (node : Node) : FS :=
  fun q => if q = p then some node else fs q

/-- An `os.FileInfo` as far as `copyFilesRecur` reads it: `Name()` and `IsDir()`. -/
structure FileInfo where
  name : String
  isDir : Bool
deriving DecidableEq, Repr

/-- Whether `p` holds a directory. -/
def isDirAt (fs : FS) (p : Path) : Bool :=
  match fs p with
  | some (Node.dir _) => true
  | _ => false

/-- The `os.FileInfo` of the entry `name` of `dir`, if the entry exists. -/
def statEntry (fs : FS) (dir : Path) (name : String) : Option FileInfo :=
  match fs (name :: dir) with
  | some (Node.dir _) => some ⟨name, true⟩
  | some (Node.file _) => some ⟨name, false⟩
  | none => none

/-- Byte-wise order of two names, the order of Go's `<` on strings. -/
def nameLE : List Char → List Char → Bool
  | [], _ => true
  | _ :: _, [] => false
  | a :: as, b :: bs =>
    if a.toNat < b.toNat then true
    else if b.toNat < a.toNat then false
    else nameLE as bs

/-- The names of a directory sorted by file name, as `ioutil.ReadDir` returns them. -/
def sortNames (names : List String) : List String :=
  names.insertionSort (fun a b => nameLE a.data b.data = true)

/-- `ioutil.ReadDir(dir)`: the entries of a directory sorted by file name, `none`
for the error returned when `dir` is not a directory. -/
def readDir (fs : FS) (dir : Path) : Option (List FileInfo) :=
  match fs dir with
  | some (Node.dir names) => some ((sortNames names).filterMap (statEntry fs dir))
  | _ => none

/-- Store `node` as the entry `name` of the directory `parent`, entering the name
in the directory when it is new; `none` when `parent` is not a directory. -/
def addEntry (fs : FS) (parent : Path) (name : String) (node : Node) : Option FS :=
  match fs parent with
  | some (Node.dir names) =>
    some ((fs.set parent (Node.dir (if name ∈ names then names else names ++ [name]))).set
      (name :: parent) node)
  | _ => none

/-- Modelled from the spec: `pathExists` is not in the source file; the spec says a
file is copied "only if no file already exists at that output path", so it reports
whether anything exists at the path. -/
def pathExists (fs : FS) (p : Path) : Bool :=
  (fs p).isSome

/-- Modelled from the spec: `createDirMust` is not in the source file; the spec says
directory copy "must create intermediate directories before copying", so it is
`os.MkdirAll` followed by a panic on error: an existing directory is left alone, a
missing one is created after its missing ancestors, and `none` (the panic) results
when a file is in the way. -/
def createDirMust : FS → Path → Option FS
  | fs, [] => if isDirAt fs [] then some fs else none
  | fs, name :: parent =>
    match fs (name :: parent) with
    | some (Node.dir _) => some fs
    | some (Node.file _) => none
    | none =>
      match createDirMust fs parent with
      | none => none
      | some fs1 => addEntry fs1 parent name (Node.dir [])

/-- Modelled from the spec: `copyFileMust` is not in the source file; the spec says
it "copies the file to the output area", so it writes the bytes of the file `src` to
the file `dst`, creating or truncating it, and panics (`none`) when `src` is not a
file, `dst` is a directory or the directory of `dst` does not exist. -/
def copyFileMust (fs : FS) (dst src : Path) : Option FS :=
  match fs src with
  | some (Node.file data) =>
    match dst with
    | [] => none
    | name :: parent =>
      match fs (name :: parent) with
      | some (Node.dir _) => none
      | _ => addEntry fs parent name (Node.file data)
  | _ => none

/-- `strings.Contains` on the characters of the two strings. -/
def containsChars (sub : List Char) : List Char → Bool
  | [] => sub.isEmpty
  | c :: cs => sub.isPrefixOf (c :: cs) || containsChars sub cs

/-- `strings.Contains(s, substr)`. -/
def stringsContains (s substr : String) : Bool :=
  containsChars substr.data s.data

/-- `shouldCopyImage(path)`. -/
def shouldCopyImage (path : String) : Bool :=
  !stringsContains path "@2x"

/-- A file system action of `copyFilesRecur`: a completed `createDirMust(dir)` or a
completed `copyFileMust(dst, src)`. -/
inductive Action where
  | createDir (dir : Path)
  | copyFile (dst src : Path)
deriving DecidableEq, Repr

/-- How a call of `copyFilesRecur` ends: it returns (`ok`), it panics, or the
recursion is deeper than the fuel allows. -/
inductive Status where
  | ok
  | panicked
  | outOfFuel
deriving DecidableEq, Repr

/-- What a call of `copyFilesRecur` leaves behind: the file system, the actions it
performed in order, and how it ended. -/
structure Result where
  fs : FS
  trace : List Action
  status : Status

/-- The result of a computation that ran after the actions `pre`. -/
def Result.after (pre : List Action) (r : Result) : Result :=
  ⟨r.fs, pre ++ r.trace, r.status⟩

/-- The `shouldCopy` flag of `copyFilesRecur`: true for a nil `shouldCopyFunc`,
else what the predicate says of the source path. -/
def shouldCopy (shouldCopyFunc : Option (String → Bool)) (src : Path) : Bool :=
  match shouldCopyFunc with
  | none => true
  | some f => f (pathString src)

/-- The `for _, fi := range fileInfos` loop of `copyFilesRecur`; `recur` is the
recursive call. -/
def copyLoop (recur : Path → Path → FS → Result) (shouldCopyFunc : Option (String → Bool))
    (dstDir srcDir : Path) : List FileInfo → FS → Result
  | [], fs => ⟨fs, [], Status.ok⟩
  | fi :: rest, fs =>
    if fi.isDir then
      let r := recur (joinPath dstDir fi.name) (joinPath srcDir fi.name) fs
      match r.status with
      | Status.ok => (copyLoop recur shouldCopyFunc dstDir srcDir rest r.fs).after r.trace
      | _ => r
    else
      let src := joinPath srcDir fi.name
      let dst := joinPath dstDir fi.name
      if !shouldCopy shouldCopyFunc src then
        copyLoop recur shouldCopyFunc dstDir srcDir rest fs
      else if pathExists fs dst then
        copyLoop recur shouldCopyFunc dstDir srcDir rest fs
      else
        match copyFileMust fs dst src with
        | none => ⟨fs, [], Status.panicked⟩
        | some fs1 =>
          (copyLoop recur shouldCopyFunc dstDir srcDir rest fs1).after [Action.copyFile dst src]

/-- `copyFilesRecur(dstDir, srcDir, shouldCopyFunc)` run on the file system `fs`.
A nil `shouldCopyFunc` is `none`.  One unit of fuel pays for one level of
recursion. -/
def copyFilesRecur (shouldCopyFunc : Option (String → Bool)) :
    Nat → Path → Path → FS → Result
  | 0, _, _, fs => ⟨fs, [], Status.outOfFuel⟩
  | fuel + 1, dstDir, srcDir, fs =>
    match createDirMust fs dstDir with
    | none => ⟨fs, [], Status.panicked⟩
    | some fs1 =>
      match readDir fs1 srcDir with
      | none => ⟨fs1, [Action.createDir dstDir], Status.panicked⟩
      | some fileInfos =>
        (copyLoop (copyFilesRecur shouldCopyFunc fuel) shouldCopyFunc dstDir srcDir
          fileInfos fs1).after [Action.createDir dstDir]

/-- `copyCoversMust()`. -/
def copyCoversMust (fuel : Nat) (fs : FS) : Result :=
  copyFilesRecur (some shouldCopyImage) fuel (joinPath ["www"] "covers") ["covers"] fs

/-- The empty working directory. -/
def emptyFS : FS :=
  fun p => if p = [] then some (Node.dir []) else none

/-- Build a file system from a list of paths and what they hold. -/
def fsOfList : List (Path × Node) → FS
  | [] => fun _ => none
  | (p, node) :: rest => (fsOfList rest).set p node

/-- A working directory with a `covers` tree: two images, a high-resolution
variant and a sub-directory with one more image. -/
def coversFS : FS :=
  fsOfList [([], Node.dir ["covers"]),
    (["covers"], Node.dir ["a.png", "a@2x.png", "sub"]),
    (["a.png", "covers"], Node.file [1, 2, 3]),
    (["a@2x.png", "covers"], Node.file [4, 5, 6, 7]),
    (["sub", "covers"], Node.dir ["b.png"]),
    (["b.png", "sub", "covers"], Node.file [8])]

/-- The file system after an action of a trace. -/
def applyAction (fs : FS) : Action → FS
  | Action.createDir d => (createDirMust fs d).getD fs
  | Action.copyFile d s => (copyFileMust fs d s).getD fs

/-- The file system after the actions of a trace, performed in order. -/
def replay (fs : FS) (trace : List Action) : FS :=
  trace.foldl applyAction fs

/-- `fs2` keeps what `fs` holds: every file with its bytes, every directory with
at least the names it had. -/
def Extends (fs fs2 : FS) : Prop :=
  ∀ p, (∀ data, fs p = some (Node.file data) → fs2 p = some (Node.file data)) ∧
    (∀ names, fs p = some (Node.dir names) →
      ∃ names2, fs2 p = some (Node.dir names2) ∧ ∀ n ∈ names, n ∈ names2)

/-- What the run of `copyFilesRecur(dstDir, srcDir, f)` guarantees of each action
of its trace, at the moment of the action: a created directory mirrors `srcDir` or
a directory below it and, unless it is `dstDir`, its parent is in `seen` or was
created earlier by the trace; a copy goes from a file below `srcDir` to its mirror
below `dstDir`, whose directory was created earlier, the predicate accepts the
source, and the destination does not exist.  `fs2` is the state after the trace. -/
def Certified (f : Option (String → Bool)) (dstDir srcDir : Path) :
    List Path → FS → List Action → FS → Prop
  | _, fs, [], fs2 => fs2 = fs
  | seen, fs, Action.createDir d :: rest, fs2 =>
    (∃ rel, d = rel ++ dstDir ∧
      (rel = [] ∨ ∃ name up, rel = name :: up ∧ up ++ dstDir ∈ seen)) ∧
    ∃ fs1, createDirMust fs d = some fs1 ∧ Certified f dstDir srcDir (d :: seen) fs1 rest fs2
  | seen, fs, Action.copyFile d s :: rest, fs2 =>
    (∃ rel name, d = name :: (rel ++ dstDir) ∧ s = name :: (rel ++ srcDir) ∧
      rel ++ dstDir ∈ seen) ∧
    shouldCopy f s = true ∧ pathExists fs d = false ∧
    ∃ fs1, copyFileMust fs d s = some fs1 ∧ Certified f dstDir srcDir seen fs1 rest fs2

/-- The destinations of the copies of a trace, in order. -/
def copyDsts : List Action → List Path
  | [] => []
  | Action.createDir _ :: rest => copyDsts rest
  | Action.copyFile d _ :: rest => d :: copyDsts rest

/-- `SubDir fs srcDir rel`: going down from `srcDir` through the directory entries
named by `rel` (innermost first) stays within directories listed by
`ioutil.ReadDir`; `rel ++ srcDir` is then `srcDir` or a sub-directory of it at
some depth. -/
inductive SubDir (fs : FS) : Path → List String → Prop where
  | self (srcDir : Path) : SubDir fs srcDir []
  | child {srcDir : Path} {name : String} {rel : List String} :
      (∃ es, readDir fs srcDir = some es ∧ (⟨name, true⟩ : FileInfo) ∈ es) →
      SubDir fs (name :: srcDir) rel → SubDir fs srcDir (rel ++ [name])

/-- `DepthLE fs n srcDir`: the directories below `srcDir` are nested at most `n`
levels deep. -/
def DepthLE (fs : FS) : Nat → Path → Prop
  | 0, srcDir =>
    ∀ name, ¬ ∃ es, readDir fs srcDir = some es ∧ (⟨name, true⟩ : FileInfo) ∈ es
  | n + 1, srcDir =>
    ∀ name, (∃ es, readDir fs srcDir = some es ∧ (⟨name, true⟩ : FileInfo) ∈ es) →
      DepthLE fs n (name :: srcDir)

/-- The source tree and the destination tree are disjoint: neither directory is
the other or lies below it. -/
def DisjointTrees (srcDir dstDir : Path) : Prop :=
  ¬ srcDir <:+ dstDir ∧ ¬ dstDir <:+ srcDir

instance (srcDir dstDir : Path) : Decidable (DisjointTrees srcDir dstDir) := by
  unfold DisjointTrees
  infer_instance

/-- The `covers` tree next to an output area in which `www/covers/a.png` already
exists with other bytes. -/
def stagedFS : FS :=
  fsOfList [([], Node.dir ["covers", "www"]),
    (["www"], Node.dir ["covers"]),
    (["covers", "www"], Node.dir ["a.png"]),
    (["a.png", "covers", "www"], Node.file [9, 9]),
    (["covers"], Node.dir ["a.png", "a@2x.png", "sub"]),
    (["a.png", "covers"], Node.file [1, 2, 3]),
    (["a@2x.png", "covers"], Node.file [4, 5, 6, 7]),
    (["sub", "covers"], Node.dir ["b.png"]),
    (["b.png", "sub", "covers"], Node.file [8])]

/-! ## The loop of `iterPages` -/

theorem contains_iff_mem (l : List String) (a : String) : l.contains a = true ↔ a ∈ l := by
  simp

theorem iterLoop_nil {σ : Type} (normalizeID : String → String)
    (onPage : σ → List Page → Nat → Reply σ) (fuel : Nat) (mem : List Page)
    (processed : List String) (s : σ) :
    iterLoop normalizeID onPage fuel mem processed [] s = ⟨[], s, mem, Outcome.finished⟩ := by
  cases fuel <;> rfl

theorem iterLoop_zero {σ : Type} (normalizeID : String → String)
    (onPage : σ → List Page → Nat → Reply σ) (mem : List Page)
    (processed : List String) (p : Nat) (q : List Nat) (s : σ) :
    iterLoop normalizeID onPage 0 mem processed (p :: q) s
      = ⟨[], s, mem, Outcome.unfinished⟩ := rfl

/-- One iteration of the loop on a non-empty queue. -/
theorem iterLoop_cons {σ : Type} (normalizeID : String → String)
    (onPage : σ → List Page → Nat → Reply σ) (fuel : Nat) (mem : List Page)
    (processed : List String) (p : Nat) (q : List Nat) (s : σ) :
    iterLoop normalizeID onPage (fuel + 1) mem processed (p :: q) s =
      match mem[p]? with
      | none => ⟨[], s, mem, Outcome.nilDeref⟩
      | some pg =>
        if normalizeID pg.ID ∈ processed then
          iterLoop normalizeID onPage fuel mem processed q s
        else if (onPage s mem p).shouldContinue = true then
          (iterLoop normalizeID onPage fuel (onPage s mem p).mem (normalizeID pg.ID :: processed)
            (q ++ pg.Pages) (onPage s mem p).state).addCall p
        else ⟨[p], (onPage s mem p).state, (onPage s mem p).mem, Outcome.stopped⟩ := by
  simp only [iterLoop]
  cases mem[p]? with
  | none => rfl
  | some pg =>
    simp only
    by_cases hin : normalizeID pg.ID ∈ processed
    · simp [hin]
    · simp [hin]

theorem pendingLinks_mark (normalizeID : String → String) (processed : List String)
    (mem : List Page) (p : Nat) (pg : Page) (hp : mem[p]? = some pg)
    (hid : normalizeID pg.ID ∉ processed) :
    pendingLinks normalizeID (normalizeID pg.ID :: processed) mem + pg.Pages.length
      ≤ pendingLinks normalizeID processed mem := by
  have mono : ∀ l : List Page,
      pendingLinks normalizeID (normalizeID pg.ID :: processed) l
        ≤ pendingLinks normalizeID processed l := by
    intro l
    induction l with
    | nil => simp [pendingLinks]
    | cons a l ih =>
      simp only [pendingLinks, List.map_cons, List.sum_cons] at ih ⊢
      have : (if (normalizeID pg.ID :: processed).contains (normalizeID a.ID) = true then 0
          else a.Pages.length)
          ≤ (if processed.contains (normalizeID a.ID) = true then 0 else a.Pages.length) := by
        by_cases h1 : normalizeID a.ID ∈ processed
        · simp [h1]
        · by_cases h2 : normalizeID a.ID = normalizeID pg.ID <;> simp [h1, h2]
      omega
  induction mem generalizing p with
  | nil => simp at hp
  | cons a l ih =>
    cases p with
    | zero =>
      simp only [List.getElem?_cons_zero, Option.some.injEq] at hp
      subst hp
      have := mono l
      simp only [pendingLinks, List.map_cons, List.sum_cons] at this ⊢
      have e1 : (normalizeID a.ID :: processed).contains (normalizeID a.ID) = true := by simp
      have e2 : ¬ (processed.contains (normalizeID a.ID) = true) := by
        rw [contains_iff_mem]; exact hid
      rw [if_pos e1, if_neg e2]
      omega
    | succ p =>
      simp only [List.getElem?_cons_succ] at hp
      have h1 := ih p hp
      have h2 := mono [a]
      simp only [pendingLinks, List.map_cons, List.sum_cons, List.map_nil, List.sum_nil] at h1 h2 ⊢
      omega

theorem loopMeasure_init (normalizeID : String → String) (book : Book) :
    loopMeasure normalizeID book.mem [] [book.RootPage] ≤ linkCount book.mem + 1 := by
  simp only [loopMeasure, pendingLinks, linkCount, List.length_singleton,
    List.contains_nil, Bool.false_eq_true, if_false]
  omega

theorem idsKept_refl (mem : List Page) : IDsKept mem mem :=
  fun _ pg h => ⟨pg, h, rfl⟩

theorem idsKept_trans (m1 m2 m3 : List Page) (h12 : IDsKept m1 m2) (h23 : IDsKept m2 m3) :
    IDsKept m1 m3 := by
  intro q pg h
  obtain ⟨pg2, h2, e2⟩ := h12 q pg h
  obtain ⟨pg3, h3, e3⟩ := h23 q pg2 h2
  exact ⟨pg3, h3, e3.trans e2⟩

theorem keepsIDs_of_leavesPages {σ : Type} (onPage : σ → List Page → Nat → Reply σ)
    (h : LeavesPages onPage) : KeepsIDs onPage := by
  intro s mem p
  rw [h s mem p]
  exact idsKept_refl mem

/-- With a callback that keeps the identifiers, every page handed to the callback
is a page object whose normalized identifier was unmarked when the loop was
entered, and no two of them share one; this holds after any number of iterations. -/
theorem iterLoop_calls_fresh {σ : Type} (normalizeID : String → String)
    (onPage : σ → List Page → Nat → Reply σ) (hkeep : KeepsIDs onPage) (fuel : Nat)
    (mem : List Page) (processed : List String) (toProcess : List Nat) (s : σ) :
    IDsKept mem (iterLoop normalizeID onPage fuel mem processed toProcess s).mem ∧
      ((iterLoop normalizeID onPage fuel mem processed toProcess s).calls.map
        (pageKey normalizeID
          (iterLoop normalizeID onPage fuel mem processed toProcess s).mem)).Nodup ∧
      ∀ c ∈ (iterLoop normalizeID onPage fuel mem processed toProcess s).calls,
        ∃ pg, (iterLoop normalizeID onPage fuel mem processed toProcess s).mem[c]? = some pg ∧
          normalizeID pg.ID ∉ processed := by
  induction fuel generalizing mem processed toProcess s with
  | zero =>
    cases toProcess with
    | nil =>
      rw [iterLoop_nil]
      exact ⟨idsKept_refl _, List.nodup_nil, fun c hc => by cases hc⟩
    | cons p q =>
      rw [iterLoop_zero]
      exact ⟨idsKept_refl _, List.nodup_nil, fun c hc => by cases hc⟩
  | succ fuel ih =>
    cases toProcess with
    | nil =>
      rw [iterLoop_nil]
      exact ⟨idsKept_refl _, List.nodup_nil, fun c hc => by cases hc⟩
    | cons p q =>
      rw [iterLoop_cons]
      cases hp : mem[p]? with
      | none => exact ⟨idsKept_refl _, List.nodup_nil, fun c hc => by cases hc⟩
      | some pg =>
        simp only
        by_cases hin : normalizeID pg.ID ∈ processed
        · rw [if_pos hin]
          exact ih _ _ _ _
        · rw [if_neg hin]
          by_cases hres : (onPage s mem p).shouldContinue = true
          · rw [if_pos hres]
            obtain ⟨hk, hnd, hfresh⟩ := ih (onPage s mem p).mem (normalizeID pg.ID :: processed)
              (q ++ pg.Pages) (onPage s mem p).state
            have hk2 := idsKept_trans _ _ _ (hkeep s mem p) hk
            obtain ⟨pg2, hpg2, hid2⟩ := hk2 p pg hp
            refine ⟨hk2, ?_, ?_⟩
            · simp only [Run.addCall, List.map_cons, List.nodup_cons]
              refine ⟨?_, hnd⟩
              intro hmem
              obtain ⟨c, hc, hkey⟩ := List.mem_map.1 hmem
              obtain ⟨pc, hpc, hnot⟩ := hfresh c hc
              simp only [pageKey, hpc, hpg2, Option.map_some', Option.some.injEq, hid2] at hkey
              exact hnot (by rw [hkey]; exact List.mem_cons_self _ _)
            · intro c hc
              simp only [Run.addCall, List.mem_cons] at hc
              rcases hc with rfl | hc
              · exact ⟨pg2, hpg2, by rw [hid2]; exact hin⟩
              · obtain ⟨pc, hpc, hnot⟩ := hfresh c hc
                exact ⟨pc, hpc, fun hh => hnot (List.mem_cons_of_mem _ hh)⟩
          · rw [if_neg hres]
            obtain ⟨pg2, hpg2, hid2⟩ := hkeep s mem p p pg hp
            refine ⟨hkeep s mem p, ?_, ?_⟩
            · simp
            · intro c hc
              rw [List.mem_singleton] at hc
              subst hc
              exact ⟨pg2, hpg2, by rw [hid2]; exact hin⟩

/-- A callback that leaves the pages alone leaves the memory as it was. -/
theorem iterLoop_mem {σ : Type} (normalizeID : String → String)
    (onPage : σ → List Page → Nat → Reply σ) (hleave : LeavesPages onPage) (fuel : Nat)
    (mem : List Page) (processed : List String) (toProcess : List Nat) (s : σ) :
    (iterLoop normalizeID onPage fuel mem processed toProcess s).mem = mem := by
  induction fuel generalizing processed toProcess s with
  | zero =>
    cases toProcess with
    | nil => rw [iterLoop_nil]
    | cons p q => rfl
  | succ fuel ih =>
    cases toProcess with
    | nil => rw [iterLoop_nil]
    | cons p q =>
      rw [iterLoop_cons]
      cases hp : mem[p]? with
      | none => rfl
      | some pg =>
        simp only
        by_cases hin : normalizeID pg.ID ∈ processed
        · rw [if_pos hin]
          exact ih _ _ _
        · rw [if_neg hin]
          by_cases hres : (onPage s mem p).shouldContinue = true
          · rw [if_pos hres, hleave s mem p]
            exact ih _ _ _
          · rw [if_neg hres]
            exact hleave s mem p

theorem stopAtFirstReject_of_true {σ : Type} (onPage : σ → List Page → Nat → Reply σ)
    (htrue : AlwaysContinues onPage) (mem : List Page) (s : σ) (full : List Nat) :
    stopAtFirstReject onPage mem s full = full := by
  induction full generalizing s with
  | nil => rfl
  | cons p rest ih => simp only [stopAtFirstReject, htrue s mem p, if_true, ih]

/-! ## Paths and distances -/

theorem pathLen_snoc (mem : List Page) (a b c n : Nat) (pg : Page)
    (h : PathLen mem a b n) (hb : mem[b]? = some pg) (hc : c ∈ pg.Pages) :
    PathLen mem a c (n + 1) := by
  induction h with
  | here a => exact PathLen.link hb hc (PathLen.here c)
  | link ha hmem _ ih => exact PathLen.link ha hmem (ih hb)

theorem pathLen_zero (mem : List Page) (a b n : Nat) (h : PathLen mem a b n) (hn : n = 0) :
    a = b := by
  cases h with
  | here => rfl
  | link _ _ _ => omega

theorem pathLen_trans (mem : List Page) (a b c n m : Nat)
    (h : PathLen mem a b n) (h2 : PathLen mem b c m) : PathLen mem a c (n + m) := by
  induction h with
  | here a => simpa using h2
  | @link a0 b0 c0 n0 pg ha hmem _ ih =>
    have := PathLen.link ha hmem (ih h2)
    have e : n0 + 1 + m = n0 + m + 1 := by omega
    rw [e]
    exact this

theorem reachable_trans (mem : List Page) (a b c : Nat)
    (h : Reachable mem a b) (h2 : Reachable mem b c) : Reachable mem a c := by
  obtain ⟨n, hn⟩ := h
  obtain ⟨m, hm⟩ := h2
  exact ⟨n + m, pathLen_trans mem a b c n m hn hm⟩

theorem reachable_link (mem : List Page) (a b c : Nat) (pg : Page)
    (h : Reachable mem a b) (hb : mem[b]? = some pg) (hc : c ∈ pg.Pages) :
    Reachable mem a c := by
  obtain ⟨n, hn⟩ := h
  exact ⟨n + 1, pathLen_snoc mem a b c n pg hn hb hc⟩

theorem avoidPath_pathLen (normalizeID : String → String) (mem : List Page)
    (processed : List String) (a b n : Nat)
    (h : AvoidPath normalizeID mem processed a b n) : PathLen mem a b n := by
  induction h with
  | here _ _ => exact PathLen.here _
  | link ha _ hmem _ ih => exact PathLen.link ha hmem ih

theorem avoidPath_start (normalizeID : String → String) (mem : List Page)
    (processed : List String) (a b n : Nat)
    (h : AvoidPath normalizeID mem processed a b n) :
    ∃ pg, mem[a]? = some pg ∧ normalizeID pg.ID ∉ processed := by
  cases h with
  | here ha hnot => exact ⟨_, ha, hnot⟩
  | link ha hnot _ _ => exact ⟨_, ha, hnot⟩

/-- A path without nil pointers avoids the empty set of identifiers. -/
theorem pathLen_avoid_nil (normalizeID : String → String) (mem : List Page) (a b n : Nat)
    (h : PathLen mem a b n) (hb : ∃ pg, mem[b]? = some pg) :
    AvoidPath normalizeID mem [] a b n := by
  induction h with
  | here a =>
    obtain ⟨pg, hpg⟩ := hb
    exact AvoidPath.here hpg (List.not_mem_nil _)
  | link ha hmem _ ih => exact AvoidPath.link ha (List.not_mem_nil _) hmem (ih hb)

/-- Marking one more identifier: a path that avoided `processed` either still
avoids the larger set, or ends in a page with the marked identifier, or passes
through such a page and continues along an avoiding, strictly shorter path. -/
theorem avoidPath_split (normalizeID : String → String) (mem : List Page)
    (processed : List String) (x : String) (q v m : Nat)
    (h : AvoidPath normalizeID mem processed q v m) :
    AvoidPath normalizeID mem (x :: processed) q v m ∨
      (∃ pg, mem[v]? = some pg ∧ normalizeID pg.ID = x) ∨
      (∃ y pg r k, Reachable mem q y ∧ mem[y]? = some pg ∧ normalizeID pg.ID = x ∧
        r ∈ pg.Pages ∧ k < m ∧ AvoidPath normalizeID mem (x :: processed) r v k) := by
  induction h with
  | here ha hnot =>
    rename_i a pg
    by_cases hx : normalizeID pg.ID = x
    · exact Or.inr (Or.inl ⟨pg, ha, hx⟩)
    · refine Or.inl (AvoidPath.here ha ?_)
      simp only [List.mem_cons, not_or]
      exact ⟨hx, hnot⟩
  | link ha hnot hmem hrest ih =>
    rename_i a b c n pg
    rcases ih with hA | hB | ⟨y, pgy, r, k, hreach, hy, hyx, hr, hk, hpath⟩
    · by_cases hx : normalizeID pg.ID = x
      · exact Or.inr (Or.inr ⟨a, pg, b, n, ⟨0, PathLen.here a⟩, ha, hx, hmem,
          Nat.lt_succ_self n, hA⟩)
      · refine Or.inl (AvoidPath.link ha ?_ hmem hA)
        simp only [List.mem_cons, not_or]
        exact ⟨hx, hnot⟩
    · exact Or.inr (Or.inl hB)
    · refine Or.inr (Or.inr ⟨y, pgy, r, k, ?_, hy, hyx, hr, Nat.lt_succ_of_lt hk, hpath⟩)
      obtain ⟨j, hj⟩ := hreach
      exact ⟨j + 1, PathLen.link ha hmem hj⟩

theorem levelQueue_tail (lo : Nat) (e : Nat × Nat) (q : List (Nat × Nat))
    (h : LevelQueue lo (e :: q)) : LevelQueue lo q := by
  obtain ⟨hs, hb⟩ := h
  simp only [List.map_cons, List.pairwise_cons] at hs
  exact ⟨hs.2, fun l hl => hb l (by simp only [List.map_cons, List.mem_cons]; exact Or.inr hl)⟩

theorem levelQueue_head (lo : Nat) (e : Nat × Nat) (q : List (Nat × Nat))
    (h : LevelQueue lo (e :: q)) :
    lo ≤ e.2 ∧ e.2 ≤ lo + 1 ∧ ∀ f ∈ q, e.2 ≤ f.2 := by
  obtain ⟨hs, hb⟩ := h
  simp only [List.map_cons, List.pairwise_cons] at hs
  have h1 := hb e.2 (by simp)
  exact ⟨h1.1, h1.2, fun f hf => hs.1 f.2 (List.mem_map.2 ⟨f, hf, rfl⟩)⟩

theorem levelQueue_step (lo : Nat) (e : Nat × Nat) (q : List (Nat × Nat)) (cs : List Nat)
    (h : LevelQueue lo (e :: q)) :
    LevelQueue e.2 (q ++ cs.map (fun c => (c, e.2 + 1))) := by
  obtain ⟨hlo, hhi, hle⟩ := levelQueue_head lo e q h
  obtain ⟨hs, hb⟩ := levelQueue_tail lo e q h
  constructor
  · simp only [List.map_append, List.map_map, List.pairwise_append]
    refine ⟨hs, ?_, ?_⟩
    · rw [List.pairwise_map]
      exact List.pairwise_of_forall (fun _ _ => le_refl _)
    · intro a ha b hb2
      obtain ⟨c, _, rfl⟩ := List.mem_map.1 hb2
      have := hb a ha
      simp only [Function.comp]
      omega
  · intro l hl
    simp only [List.map_append, List.map_map, List.mem_append] at hl
    rcases hl with hl | hl
    · obtain ⟨f, hf, rfl⟩ := List.mem_map.1 hl
      have := hle f hf
      have := hb f.2 (List.mem_map.2 ⟨f, hf, rfl⟩)
      omega
    · obtain ⟨c, _, rfl⟩ := List.mem_map.1 hl
      simp only [Function.comp]
      omega

theorem isPageStructure_of_closed (book : Book) (h : book.Closed) : IsPageStructure book := by
  have key : ∀ a b n, PathLen book.mem a b n → a < book.mem.length → b < book.mem.length := by
    intro a b n hp
    induction hp with
    | here a => exact id
    | link ha hmem _ ih =>
      intro _
      exact ih (h.2 _ (List.getElem?_mem ha) _ hmem)
  intro p hp
  obtain ⟨n, hn⟩ := hp
  have hlt := key _ _ _ hn h.1
  exact ⟨book.mem[p], List.getElem?_eq_getElem hlt⟩

theorem distinctIDs_of_nodup (normalizeID : String → String) (book : Book)
    (h : (book.mem.map (fun pg => normalizeID pg.ID)).Nodup) : DistinctIDs normalizeID book := by
  intro p q pgp pgq _ _ hp hq hkey
  have hlt : p < (book.mem.map (fun pg => normalizeID pg.ID)).length := by
    rw [List.length_map]
    exact (List.getElem?_eq_some.1 hp).1
  apply List.getElem?_inj hlt h
  rw [List.getElem?_map, List.getElem?_map, hp, hq]
  simp only [Option.map_some', hkey]

/-! ## The traversal with link counts -/

theorem levelLoop_nil (normalizeID : String → String) (mem : List Page) (fuel : Nat)
    (processed : List String) : levelLoop normalizeID mem fuel processed [] = [] := by
  cases fuel <;> rfl

theorem levelLoop_cons (normalizeID : String → String) (mem : List Page) (fuel : Nat)
    (processed : List String) (p lv : Nat) (q : List (Nat × Nat)) :
    levelLoop normalizeID mem (fuel + 1) processed ((p, lv) :: q) =
      match mem[p]? with
      | none => []
      | some pg =>
        if normalizeID pg.ID ∈ processed then levelLoop normalizeID mem fuel processed q
        else (p, lv) :: levelLoop normalizeID mem fuel (normalizeID pg.ID :: processed)
          (q ++ pg.Pages.map (fun c => (c, lv + 1))) := by
  simp only [levelLoop]

theorem map_fst_level (cs : List Nat) (lv : Nat) :
    (cs.map (fun c => (c, lv))).map Prod.fst = cs := by
  induction cs with
  | nil => rfl
  | cons c cs ih => simp only [List.map_cons, ih]

/-- Forgetting the link counts of `levelLoop` gives the calls of `iterLoop` with a
callback that leaves the pages alone and always returns true. -/
theorem levelLoop_erase {σ : Type} (normalizeID : String → String)
    (onPage : σ → List Page → Nat → Reply σ) (hleave : LeavesPages onPage)
    (htrue : AlwaysContinues onPage) (mem : List Page) (fuel : Nat)
    (processed : List String) (q : List (Nat × Nat)) (s : σ) :
    (iterLoop normalizeID onPage fuel mem processed (q.map Prod.fst) s).calls
      = (levelLoop normalizeID mem fuel processed q).map Prod.fst := by
  induction fuel generalizing processed q s with
  | zero =>
    cases q with
    | nil =>
      simp only [List.map_nil, iterLoop_nil, levelLoop_nil]
    | cons e q => rfl
  | succ fuel ih =>
    cases q with
    | nil =>
      simp only [List.map_nil, iterLoop_nil, levelLoop_nil]
    | cons e q =>
      obtain ⟨p, lv⟩ := e
      simp only [List.map_cons]
      rw [iterLoop_cons, levelLoop_cons]
      cases hp : mem[p]? with
      | none => rfl
      | some pg =>
        simp only
        by_cases hin : normalizeID pg.ID ∈ processed
        · rw [if_pos hin, if_pos hin]
          exact ih _ _ _
        · rw [if_neg hin, if_neg hin, if_pos (htrue s mem p), hleave s mem p]
          have hq : q.map Prod.fst ++ pg.Pages
              = (q ++ pg.Pages.map (fun c => (c, lv + 1))).map Prod.fst := by
            rw [List.map_append, map_fst_level]
          rw [hq]
          simp only [Run.addCall, List.map_cons]
          rw [ih]

/-- The link counts of the calls never decrease. -/
theorem levelLoop_sorted (normalizeID : String → String) (mem : List Page) (fuel : Nat)
    (processed : List String) (q : List (Nat × Nat)) (lo : Nat) (hq : LevelQueue lo q) :
    ((levelLoop normalizeID mem fuel processed q).map Prod.snd).Pairwise (fun a b => a ≤ b) ∧
      ∀ e ∈ levelLoop normalizeID mem fuel processed q, lo ≤ e.2 := by
  induction fuel generalizing processed q lo with
  | zero =>
    cases q with
    | nil =>
      rw [levelLoop_nil]
      simp
    | cons e q => simp [levelLoop]
  | succ fuel ih =>
    cases q with
    | nil =>
      rw [levelLoop_nil]
      simp
    | cons e q =>
      obtain ⟨p, lv⟩ := e
      rw [levelLoop_cons]
      cases hp : mem[p]? with
      | none => simp
      | some pg =>
        simp only
        by_cases hin : normalizeID pg.ID ∈ processed
        · rw [if_pos hin]
          exact ih _ _ _ (levelQueue_tail _ _ _ hq)
        · rw [if_neg hin]
          obtain ⟨hs, hb⟩ := ih (normalizeID pg.ID :: processed) _ _
            (levelQueue_step lo (p, lv) q pg.Pages hq)
          obtain ⟨hlo, _, _⟩ := levelQueue_head lo (p, lv) q hq
          constructor
          · simp only [List.map_cons, List.pairwise_cons]
            refine ⟨?_, hs⟩
            intro a ha
            obtain ⟨f, hf, rfl⟩ := List.mem_map.1 ha
            exact hb f hf
          · intro f hf
            simp only [List.mem_cons] at hf
            rcases hf with rfl | hf
            · exact hlo
            · have := hb f hf
              simp only at this hlo
              omega

/-- Every call is reached from the root along a path with the recorded link count. -/
theorem levelLoop_sound (normalizeID : String → String) (mem : List Page) (root : Nat)
    (fuel : Nat) (processed : List String) (q : List (Nat × Nat))
    (hq : ∀ e ∈ q, PathLen mem root e.1 e.2) :
    ∀ e ∈ levelLoop normalizeID mem fuel processed q, PathLen mem root e.1 e.2 := by
  induction fuel generalizing processed q with
  | zero =>
    cases q with
    | nil =>
      rw [levelLoop_nil]
      simp
    | cons e q => simp [levelLoop]
  | succ fuel ih =>
    cases q with
    | nil =>
      rw [levelLoop_nil]
      simp
    | cons e q =>
      obtain ⟨p, lv⟩ := e
      rw [levelLoop_cons]
      cases hp : mem[p]? with
      | none => simp
      | some pg =>
        simp only
        by_cases hin : normalizeID pg.ID ∈ processed
        · rw [if_pos hin]
          exact ih _ _ (fun e he => hq e (List.mem_cons_of_mem _ he))
        · rw [if_neg hin]
          have hroot := hq (p, lv) (List.mem_cons_self _ _)
          have := ih (normalizeID pg.ID :: processed)
            (q ++ pg.Pages.map (fun c => (c, lv + 1))) (by
            intro e he
            rcases List.mem_append.1 he with he | he
            · exact hq e (List.mem_cons_of_mem _ he)
            · obtain ⟨c, hc, rfl⟩ := List.mem_map.1 he
              exact pathLen_snoc mem root p c lv pg hroot hp hc)
          intro e he
          simp only [List.mem_cons] at he
          rcases he with rfl | he
          · exact hroot
          · exact this e he

/-- The measure of the queue left by one iteration. -/
theorem loopMeasure_skip (normalizeID : String → String) (mem : List Page)
    (processed : List String) (p : Nat) (q : List Nat) :
    loopMeasure normalizeID mem processed q + 1
      = loopMeasure normalizeID mem processed (p :: q) := by
  simp only [loopMeasure, List.length_cons]
  omega

theorem loopMeasure_visit (normalizeID : String → String) (mem : List Page)
    (processed : List String) (p : Nat) (q : List Nat) (pg : Page) (hp : mem[p]? = some pg)
    (hin : normalizeID pg.ID ∉ processed) :
    loopMeasure normalizeID mem (normalizeID pg.ID :: processed) (q ++ pg.Pages) + 1
      ≤ loopMeasure normalizeID mem processed (p :: q) := by
  have := pendingLinks_mark normalizeID processed mem p pg hp hin
  simp only [loopMeasure, List.length_cons, List.length_append]
  omega

/-- Every page that an avoiding path joins to a queue entry is called, with a link
count no larger than the count of the entry plus the length of the path. -/
theorem levelLoop_complete (normalizeID : String → String) (book : Book)
    (hnil : IsPageStructure book) (hdist : DistinctIDs normalizeID book) (fuel : Nat)
    (processed : List String) (q : List (Nat × Nat)) (lo : Nat)
    (hfuel : loopMeasure normalizeID book.mem processed (q.map Prod.fst) ≤ fuel)
    (hq : LevelQueue lo q)
    (hreach : ∀ e ∈ q, Reachable book.mem book.RootPage e.1) :
    ∀ e ∈ q, ∀ v m, AvoidPath normalizeID book.mem processed e.1 v m →
      ∃ lv, (v, lv) ∈ levelLoop normalizeID book.mem fuel processed q ∧ lv ≤ e.2 + m := by
  induction fuel generalizing processed q lo with
  | zero =>
    cases q with
    | nil => simp
    | cons e q => simp [loopMeasure] at hfuel
  | succ fuel ih =>
    cases q with
    | nil => simp
    | cons e0 q =>
      obtain ⟨x, lx⟩ := e0
      rw [levelLoop_cons]
      have hxreach : Reachable book.mem book.RootPage x := hreach (x, lx) (List.mem_cons_self _ _)
      obtain ⟨pg, hp⟩ := hnil x hxreach
      simp only [hp]
      obtain ⟨_, _, hhead⟩ := levelQueue_head lo (x, lx) q hq
      simp only [List.map_cons] at hfuel
      by_cases hin : normalizeID pg.ID ∈ processed
      · rw [if_pos hin]
        intro e he v m hpath
        have hne : e ∈ q := by
          rcases List.mem_cons.1 he with rfl | he
          · obtain ⟨pg2, hpg2, hnot⟩ := avoidPath_start _ _ _ _ _ _ hpath
            simp only [hp, Option.some.injEq] at hpg2
            subst hpg2
            exact absurd hin hnot
          · exact he
        have hf := loopMeasure_skip normalizeID book.mem processed x (q.map Prod.fst)
        exact ih _ _ _ (by omega) (levelQueue_tail _ _ _ hq)
          (fun f hf => hreach f (List.mem_cons_of_mem _ hf)) e hne v m hpath
      · rw [if_neg hin]
        have hreach2 : ∀ f ∈ q ++ pg.Pages.map (fun c => (c, lx + 1)),
            Reachable book.mem book.RootPage f.1 := by
          intro f hf
          rcases List.mem_append.1 hf with hf | hf
          · exact hreach f (List.mem_cons_of_mem _ hf)
          · obtain ⟨c, hc, rfl⟩ := List.mem_map.1 hf
            exact reachable_link _ _ _ _ _ hxreach hp hc
        have hf := loopMeasure_visit normalizeID book.mem processed x (q.map Prod.fst) pg hp hin
        have hfuel2 : loopMeasure normalizeID book.mem (normalizeID pg.ID :: processed)
            ((q ++ pg.Pages.map (fun c => (c, lx + 1))).map Prod.fst) ≤ fuel := by
          rw [List.map_append, map_fst_level]
          omega
        have ih2 := ih (normalizeID pg.ID :: processed) _ _ hfuel2
          (levelQueue_step lo (x, lx) q pg.Pages hq) hreach2
        intro e he v m hpath
        have hle : lx ≤ e.2 := by
          rcases List.mem_cons.1 he with rfl | he
          · exact le_refl _
          · exact hhead e he
        have hereach : Reachable book.mem book.RootPage e.1 := hreach e he
        rcases avoidPath_split normalizeID book.mem processed (normalizeID pg.ID) e.1 v m hpath
          with hA | ⟨pgv, hv, hvx⟩ | ⟨y, pgy, r, k, hey, hy, hyx, hr, hk, hrest⟩
        · have hne : e ∈ q := by
            rcases List.mem_cons.1 he with rfl | he
            · obtain ⟨pg2, hpg2, hnot⟩ := avoidPath_start _ _ _ _ _ _ hA
              simp only [hp, Option.some.injEq] at hpg2
              subst hpg2
              exact absurd (List.mem_cons_self _ _) hnot
            · exact he
          obtain ⟨lv, hlv, hb⟩ := ih2 e (List.mem_append_left _ hne) v m hA
          exact ⟨lv, List.mem_cons_of_mem _ hlv, hb⟩
        · have hvreach : Reachable book.mem book.RootPage v :=
            reachable_trans _ _ _ _ hereach ⟨m, avoidPath_pathLen _ _ _ _ _ _ hpath⟩
          have hvx2 : v = x := hdist v x pgv pg hvreach hxreach hv hp hvx
          subst hvx2
          exact ⟨lx, List.mem_cons_self _ _, by omega⟩
        · have hyreach : Reachable book.mem book.RootPage y := reachable_trans _ _ _ _ hereach hey
          have hyx2 : y = x := hdist y x pgy pg hyreach hxreach hy hp hyx
          subst hyx2
          simp only [hp, Option.some.injEq] at hy
          subst hy
          have hmem : (r, lx + 1) ∈ q ++ pg.Pages.map (fun c => (c, lx + 1)) :=
            List.mem_append_right _ (List.mem_map.2 ⟨r, hr, rfl⟩)
          obtain ⟨lv, hlv, hb⟩ := ih2 (r, lx + 1) hmem v k hrest
          exact ⟨lv, List.mem_cons_of_mem _ hlv, by simp only at hb; omega⟩

/-- The calls are the first occurrences, in order, of the pages of the queue
followed by the links of the first call in `Pages` order, the links of the second
call, and so on: pages leave the queue at the front and links enter it at the back
in `Pages` order. -/
theorem levelLoop_firsts (normalizeID : String → String) (book : Book)
    (hnil : IsPageStructure book) (hdist : DistinctIDs normalizeID book) (fuel : Nat)
    (processed : List String) (q : List (Nat × Nat)) (seen : List Nat)
    (hfuel : loopMeasure normalizeID book.mem processed (q.map Prod.fst) ≤ fuel)
    (hreach : ∀ e ∈ q, Reachable book.mem book.RootPage e.1)
    (hseen : ∀ y pg, Reachable book.mem book.RootPage y → book.mem[y]? = some pg →
      (normalizeID pg.ID ∈ processed ↔ y ∈ seen)) :
    (levelLoop normalizeID book.mem fuel processed q).map Prod.fst
      = firstsAux seen (q.map Prod.fst ++
          ((levelLoop normalizeID book.mem fuel processed q).map Prod.fst).flatMap
            (pagesOf book.mem)) := by
  induction fuel generalizing processed q seen with
  | zero =>
    cases q with
    | nil => simp [levelLoop_nil, firstsAux]
    | cons e q => simp [loopMeasure] at hfuel
  | succ fuel ih =>
    cases q with
    | nil => simp [levelLoop_nil, firstsAux]
    | cons e0 q =>
      obtain ⟨x, lx⟩ := e0
      rw [levelLoop_cons]
      have hxreach : Reachable book.mem book.RootPage x := hreach (x, lx) (List.mem_cons_self _ _)
      obtain ⟨pg, hp⟩ := hnil x hxreach
      simp only [hp]
      simp only [List.map_cons] at hfuel
      by_cases hin : normalizeID pg.ID ∈ processed
      · rw [if_pos hin]
        have hxs : x ∈ seen := (hseen x pg hxreach hp).1 hin
        have hf := loopMeasure_skip normalizeID book.mem processed x (q.map Prod.fst)
        have := ih processed q seen (by omega)
          (fun f hf => hreach f (List.mem_cons_of_mem _ hf)) hseen
        simp only [List.map_cons, List.cons_append, firstsAux, hxs, if_true]
        exact this
      · rw [if_neg hin]
        have hxs : x ∉ seen := fun h => hin ((hseen x pg hxreach hp).2 h)
        have hreach2 : ∀ f ∈ q ++ pg.Pages.map (fun c => (c, lx + 1)),
            Reachable book.mem book.RootPage f.1 := by
          intro f hf
          rcases List.mem_append.1 hf with hf | hf
          · exact hreach f (List.mem_cons_of_mem _ hf)
          · obtain ⟨c, hc, rfl⟩ := List.mem_map.1 hf
            exact reachable_link _ _ _ _ _ hxreach hp hc
        have hf := loopMeasure_visit normalizeID book.mem processed x (q.map Prod.fst) pg hp hin
        have hfuel2 : loopMeasure normalizeID book.mem (normalizeID pg.ID :: processed)
            ((q ++ pg.Pages.map (fun c => (c, lx + 1))).map Prod.fst) ≤ fuel := by
          rw [List.map_append, map_fst_level]
          omega
        have hseen2 : ∀ y pgy, Reachable book.mem book.RootPage y → book.mem[y]? = some pgy →
            (normalizeID pgy.ID ∈ normalizeID pg.ID :: processed ↔ y ∈ x :: seen) := by
          intro y pgy hy hpy
          simp only [List.mem_cons]
          constructor
          · rintro (h | h)
            · exact Or.inl (hdist y x pgy pg hy hxreach hpy hp h)
            · exact Or.inr ((hseen y pgy hy hpy).1 h)
          · rintro (h | h)
            · subst h
              rw [hp] at hpy
              cases hpy
              exact Or.inl rfl
            · exact Or.inr ((hseen y pgy hy hpy).2 h)
        have := ih (normalizeID pg.ID :: processed) _ (x :: seen) hfuel2 hreach2 hseen2
        rw [List.map_append, map_fst_level] at this
        have hpx : pagesOf book.mem x = pg.Pages := by simp [pagesOf, hp]
        simp only [List.map_cons, List.cons_append, firstsAux, hxs, if_false,
          List.flatMap_cons, hpx, List.cons.injEq, true_and]
        rw [List.append_assoc] at this
        exact this

/-- In a page structure the run with a callback that leaves the pages alone and
always returns true ends with an empty queue. -/
theorem iterLoop_finished {σ : Type} (normalizeID : String → String) (book : Book)
    (onPage : σ → List Page → Nat → Reply σ) (hleave : LeavesPages onPage)
    (htrue : AlwaysContinues onPage) (hnil : IsPageStructure book) (fuel : Nat)
    (processed : List String) (q : List Nat) (s : σ)
    (hfuel : loopMeasure normalizeID book.mem processed q ≤ fuel)
    (hreach : ∀ p ∈ q, Reachable book.mem book.RootPage p) :
    (iterLoop normalizeID onPage fuel book.mem processed q s).outcome = Outcome.finished := by
  induction fuel generalizing processed q s with
  | zero =>
    cases q with
    | nil => rw [iterLoop_nil]
    | cons p q => simp [loopMeasure] at hfuel
  | succ fuel ih =>
    cases q with
    | nil => rw [iterLoop_nil]
    | cons p q =>
      rw [iterLoop_cons]
      have hpreach := hreach p (List.mem_cons_self _ _)
      obtain ⟨pg, hp⟩ := hnil p hpreach
      simp only [hp]
      by_cases hin : normalizeID pg.ID ∈ processed
      · rw [if_pos hin]
        have hf := loopMeasure_skip normalizeID book.mem processed p q
        exact ih _ _ _ (by omega) (fun c hc => hreach c (List.mem_cons_of_mem _ hc))
      · rw [if_neg hin, if_pos (htrue s book.mem p), hleave s book.mem p]
        have hf := loopMeasure_visit normalizeID book.mem processed p q pg hp hin
        have := ih (normalizeID pg.ID :: processed) (q ++ pg.Pages) (onPage s book.mem p).state
          (by omega) (by
          intro c hc
          rcases List.mem_append.1 hc with hc | hc
          · exact hreach c (List.mem_cons_of_mem _ hc)
          · exact reachable_link _ _ _ _ _ hpreach hp hc)
        simpa [Run.addCall] using this

/-- The facts about the full traversal that completeness and breadth-first order
rest on: the run with a callback that leaves the pages alone and always returns
true ends with an empty queue, and its calls carry link counts that never
decrease, are lengths of paths from the root, and are no larger than the length of
any path to the page. -/
theorem iterPages_levels {σ : Type} (normalizeID : String → String) (book : Book)
    (onPage : σ → List Page → Nat → Reply σ) (s : σ) (hleave : LeavesPages onPage)
    (htrue : AlwaysContinues onPage) (hnil : IsPageStructure book)
    (hdist : DistinctIDs normalizeID book) (fuel : Nat)
    (hfuel : linkCount book.mem + 1 ≤ fuel) :
    ∃ l : List (Nat × Nat),
      (iterPages normalizeID book onPage fuel s).outcome = Outcome.finished ∧
      l.map Prod.fst = (iterPages normalizeID book onPage fuel s).calls ∧
      (iterPages normalizeID book onPage fuel s).calls.Nodup ∧
      (l.map Prod.snd).Pairwise (fun a b => a ≤ b) ∧
      (∀ e ∈ l, PathLen book.mem book.RootPage e.1 e.2) ∧
      (∀ v m, PathLen book.mem book.RootPage v m → ∃ lv, (v, lv) ∈ l ∧ lv ≤ m) ∧
      (iterPages normalizeID book onPage fuel s).calls
        = firstOccurrences (book.RootPage ::
            (iterPages normalizeID book onPage fuel s).calls.flatMap (pagesOf book.mem)) := by
  have hroot : Reachable book.mem book.RootPage book.RootPage := ⟨0, PathLen.here _⟩
  have hm : loopMeasure normalizeID book.mem [] [book.RootPage] ≤ fuel :=
    le_trans (loopMeasure_init normalizeID book) hfuel
  have hreach1 : ∀ p ∈ [book.RootPage], Reachable book.mem book.RootPage p := by
    intro p hp
    rw [List.mem_singleton] at hp
    subst hp
    exact hroot
  have hfin := iterLoop_finished normalizeID book onPage hleave htrue hnil fuel [] _ s hm hreach1
  have hcalls : (iterPages normalizeID book onPage fuel s).calls
      = (levelLoop normalizeID book.mem fuel [] [(book.RootPage, 0)]).map Prod.fst :=
    levelLoop_erase normalizeID onPage hleave htrue book.mem fuel [] [(book.RootPage, 0)] s
  have hnd : (iterPages normalizeID book onPage fuel s).calls.Nodup := by
    obtain ⟨_, hk, _⟩ := iterLoop_calls_fresh normalizeID onPage
      (keepsIDs_of_leavesPages onPage hleave) fuel book.mem [] [book.RootPage] s
    exact List.Nodup.of_map _ hk
  have hq : LevelQueue 0 [(book.RootPage, 0)] := by
    constructor
    · simp
    · intro a ha
      simp only [List.map_cons, List.map_nil, List.mem_singleton] at ha
      subst ha
      omega
  have hreach : ∀ e ∈ [(book.RootPage, 0)], Reachable book.mem book.RootPage e.1 := by
    intro e he
    rw [List.mem_singleton] at he
    subst he
    exact hroot
  obtain ⟨hs, _⟩ := levelLoop_sorted normalizeID book.mem fuel [] [(book.RootPage, 0)] 0 hq
  have hsound := levelLoop_sound normalizeID book.mem book.RootPage fuel []
    [(book.RootPage, 0)] (by
    intro e he
    rw [List.mem_singleton] at he
    subst he
    exact PathLen.here _)
  have hcomp := levelLoop_complete normalizeID book hnil hdist fuel [] [(book.RootPage, 0)] 0
    hm hq hreach
  have hfirst := levelLoop_firsts normalizeID book hnil hdist fuel [] [(book.RootPage, 0)] []
    hm hreach (by
    intro y pg _ _
    simp)
  refine ⟨_, hfin, hcalls.symm, hnd, hs, hsound, ?_, ?_⟩
  · intro v m hv
    have hav := pathLen_avoid_nil normalizeID book.mem _ _ _ hv (hnil v ⟨m, hv⟩)
    obtain ⟨lv, hlv, hb⟩ := hcomp (book.RootPage, 0) (List.mem_singleton.2 rfl) v m hav
    exact ⟨lv, hlv, by simpa using hb⟩
  · rw [hcalls]
    exact hfirst

/-! ## Properties of `iterPages` -/

/-- C1, for callbacks that keep the identifiers: for every book, every
normalization function, every callback that never changes the `NotionPage.ID` of a
page (it may change `Pages` lists and add pages) and after any number of loop
iterations, every page handed to `onPage` is a page object, no two pages in the
sequence of calls have equal `normalizeID(NotionPage.ID)`, and no page pointer
occurs in the sequence twice. -/
theorem iterPages_no_repeat {σ : Type} (normalizeID : String → String) (book : Book)
    (onPage : σ → List Page → Nat → Reply σ) (hkeep : KeepsIDs onPage) (fuel : Nat) (s : σ) :
    (∀ p ∈ (iterPages normalizeID book onPage fuel s).calls,
      ∃ pg, (iterPages normalizeID book onPage fuel s).mem[p]? = some pg) ∧
    (iterPages normalizeID book onPage fuel s).calls.Pairwise
      (fun p q => pageKey normalizeID (iterPages normalizeID book onPage fuel s).mem p
        ≠ pageKey normalizeID (iterPages normalizeID book onPage fuel s).mem q) ∧
    (iterPages normalizeID book onPage fuel s).calls.Nodup := by
  obtain ⟨_, hnd, hfresh⟩ := iterLoop_calls_fresh normalizeID onPage hkeep fuel book.mem []
    [book.RootPage] s
  refine ⟨?_, ?_, ?_⟩
  · intro p hp
    obtain ⟨pg, hpg, _⟩ := hfresh p hp
    exact ⟨pg, hpg⟩
  · exact (List.pairwise_map).1 hnd
  · exact List.Nodup.of_map _ hnd

theorem iterPages_no_repeat_witness :
    KeepsIDs alwaysContinue ∧
      (iterPages id bookCycle alwaysContinue 3 ()).calls = [0, 1] ∧
      (iterPages id bookCycle alwaysContinue 3 ()).calls.Nodup :=
  ⟨keepsIDs_of_leavesPages alwaysContinue (fun _ _ _ => rfl), by decide,
    (iterPages_no_repeat id bookCycle alwaysContinue
      (keepsIDs_of_leavesPages alwaysContinue (fun _ _ _ => rfl)) 3 ()).2.2⟩

/-- C1 fails for a callback that renames pages: on the graph A → B, A → C, B → D,
B → A the callback that renames each page the first time it is given it is called
on A, B, C, D and then on A, B, C, D again. -/
theorem iterPages_no_repeat_counterexample :
    (iterPages id bookABCD renameOnce 20 []).outcome = Outcome.finished ∧
      (iterPages id bookABCD renameOnce 20 []).calls = [0, 1, 2, 3, 0, 1, 2, 3] ∧
      ¬ (iterPages id bookABCD renameOnce 20 []).calls.Nodup ∧
      ¬ (iterPages id bookABCD renameOnce 20 []).calls.Pairwise
        (fun p q => pageKey id (iterPages id bookABCD renameOnce 20 []).mem p
          ≠ pageKey id (iterPages id bookABCD renameOnce 20 []).mem q) := by
  decide

/-- C3, for callbacks that leave the pages alone: for every page structure in
which distinct pages have distinct normalized identifiers and every callback that
always returns true and leaves the pages alone, `iterPages` ends with an empty
queue within `linkCount + 1` iterations, and it has invoked `onPage` exactly once
on every page reachable from `book.RootPage` through `Page.Pages` links and on no
other page. -/
theorem iterPages_visits_reachable_once {σ : Type} (normalizeID : String → String)
    (book : Book) (onPage : σ → List Page → Nat → Reply σ) (s : σ)
    (hleave : LeavesPages onPage) (htrue : AlwaysContinues onPage)
    (hnil : IsPageStructure book) (hdist : DistinctIDs normalizeID book)
    (fuel : Nat) (hfuel : linkCount book.mem + 1 ≤ fuel) :
    (iterPages normalizeID book onPage fuel s).outcome = Outcome.finished ∧
      ∀ p, (Reachable book.mem book.RootPage p →
          (iterPages normalizeID book onPage fuel s).calls.count p = 1) ∧
        (¬ Reachable book.mem book.RootPage p →
          (iterPages normalizeID book onPage fuel s).calls.count p = 0) := by
  obtain ⟨l, hfin, hlr, hnd, _, hsound, hcomp, _⟩ :=
    iterPages_levels normalizeID book onPage s hleave htrue hnil hdist fuel hfuel
  refine ⟨hfin, fun p => ⟨?_, ?_⟩⟩
  · intro hp
    obtain ⟨n, hn⟩ := hp
    obtain ⟨lv, hlv, _⟩ := hcomp p n hn
    have hmem : p ∈ (iterPages normalizeID book onPage fuel s).calls := by
      rw [← hlr]
      exact List.mem_map.2 ⟨(p, lv), hlv, rfl⟩
    exact List.count_eq_one_of_mem hnd hmem
  · intro hp
    apply List.count_eq_zero_of_not_mem
    intro hmem
    rw [← hlr] at hmem
    obtain ⟨e, he, rfl⟩ := List.mem_map.1 hmem
    exact hp ⟨e.2, hsound e he⟩

theorem iterPages_visits_reachable_once_witness :
    LeavesPages alwaysContinue ∧ AlwaysContinues alwaysContinue ∧
      IsPageStructure bookABCD ∧ DistinctIDs id bookABCD ∧
      linkCount bookABCD.mem + 1 ≤ 5 ∧
      (iterPages id bookABCD alwaysContinue 5 ()).calls = [0, 1, 2, 3] ∧
      (iterPages id bookABCD alwaysContinue 5 ()).outcome = Outcome.finished ∧
      ∀ p, (Reachable bookABCD.mem bookABCD.RootPage p →
          (iterPages id bookABCD alwaysContinue 5 ()).calls.count p = 1) ∧
        (¬ Reachable bookABCD.mem bookABCD.RootPage p →
          (iterPages id bookABCD alwaysContinue 5 ()).calls.count p = 0) :=
  ⟨fun _ _ _ => rfl, fun _ _ _ => rfl,
    isPageStructure_of_closed bookABCD (by decide),
    distinctIDs_of_nodup id bookABCD (by decide),
    by decide, by decide,
    iterPages_visits_reachable_once id bookABCD alwaysContinue () (fun _ _ _ => rfl)
      (fun _ _ _ => rfl) (isPageStructure_of_closed bookABCD (by decide))
      (distinctIDs_of_nodup id bookABCD (by decide)) 5 (by decide)⟩

theorem renameOnce_continues : AlwaysContinues renameOnce := by
  intro renamed mem p
  unfold renameOnce
  by_cases h : p ∈ renamed
  · rw [if_pos h]
  · rw [if_neg h]

/-- C3 fails for a callback that renames pages: on the graph A → B, A → C, B → D,
B → A, whose pages have distinct identifiers before and after the run, the
always-true callback that renames each page the first time it is given it is
called twice on the root, and a callback that gives every page the same
identifier is never called on C and D. -/
theorem iterPages_visits_reachable_once_counterexample :
    AlwaysContinues renameOnce ∧ IsPageStructure bookABCD ∧ DistinctIDs id bookABCD ∧
      ((iterPages id bookABCD renameOnce 20 []).mem.map (fun pg => pg.ID)).Nodup ∧
      (iterPages id bookABCD renameOnce 20 []).outcome = Outcome.finished ∧
      Reachable bookABCD.mem bookABCD.RootPage 0 ∧
      (iterPages id bookABCD renameOnce 20 []).calls.count 0 = 2 ∧
      (iterPages id bookABCD
        (fun (_ : Unit) mem _ => ⟨true, (), mem.map (fun pg => ⟨"same", pg.Pages⟩)⟩) 20 ()).calls
        = [0, 1] :=
  ⟨renameOnce_continues, isPageStructure_of_closed bookABCD (by decide),
    distinctIDs_of_nodup id bookABCD (by decide), by decide, by decide,
    ⟨0, PathLen.here 0⟩, by decide, by decide⟩

/-- C4, for callbacks that leave the pages alone: for every page structure in
which distinct pages have distinct normalized identifiers and every callback that
always returns true and leaves the pages alone, `iterPages` calls `onPage` first
on the root, every page it calls `onPage` on has a shortest `Page.Pages` path from
the root, and whenever it calls `onPage` on a page `p` before a page `q`, the
shortest path from the root to `p` is no longer than the shortest path from the
root to `q`.  The order of the calls is the order of the queue: the calls are the
first occurrences of the pages in the sequence made of the root, the links of the
first called page in `Pages` order, the links of the second called page in `Pages`
order, and so on. -/
theorem iterPages_breadth_first {σ : Type} (normalizeID : String → String) (book : Book)
    (onPage : σ → List Page → Nat → Reply σ) (s : σ)
    (hleave : LeavesPages onPage) (htrue : AlwaysContinues onPage)
    (hnil : IsPageStructure book) (hdist : DistinctIDs normalizeID book)
    (fuel : Nat) (hfuel : linkCount book.mem + 1 ≤ fuel) :
    (iterPages normalizeID book onPage fuel s).outcome = Outcome.finished ∧
      (iterPages normalizeID book onPage fuel s).calls.head? = some book.RootPage ∧
      (∀ p ∈ (iterPages normalizeID book onPage fuel s).calls,
        ∃ d, IsDist book.mem book.RootPage p d) ∧
      (iterPages normalizeID book onPage fuel s).calls.Pairwise
        (fun p q => ∀ dp dq, IsDist book.mem book.RootPage p dp →
          IsDist book.mem book.RootPage q dq → dp ≤ dq) ∧
      (iterPages normalizeID book onPage fuel s).calls
        = firstOccurrences (book.RootPage ::
            (iterPages normalizeID book onPage fuel s).calls.flatMap (pagesOf book.mem)) := by
  obtain ⟨l, hfin, hlr, hnd, hs, hsound, hcomp, hfirst⟩ :=
    iterPages_levels normalizeID book onPage s hleave htrue hnil hdist fuel hfuel
  have hinj : ∀ e ∈ l, ∀ f ∈ l, e.1 = f.1 → e = f := by
    apply List.inj_on_of_nodup_map
    rw [hlr]
    exact hnd
  -- the link count recorded for a call is the distance of the page from the root
  have hexact : ∀ e ∈ l, IsDist book.mem book.RootPage e.1 e.2 := by
    intro e he
    refine ⟨hsound e he, fun n hn => ?_⟩
    obtain ⟨lv, hlv, hb⟩ := hcomp e.1 n hn
    have := hinj (e.1, lv) hlv e he rfl
    rw [← this]
    exact hb
  refine ⟨hfin, ?_, ?_, ?_, hfirst⟩
  · obtain ⟨lv, hlv, hb⟩ := hcomp book.RootPage 0 (PathLen.here _)
    have h0 : lv = 0 := by omega
    subst h0
    cases l with
    | nil => simp at hlv
    | cons e l =>
      rw [← hlr]
      simp only [List.map_cons, List.head?_cons, Option.some.injEq]
      rcases List.mem_cons.1 hlv with h | h
      · rw [← h]
      · simp only [List.map_cons, List.pairwise_cons] at hs
        have h1 := hs.1 0 (List.mem_map.2 ⟨_, h, rfl⟩)
        have h2 : e.2 = 0 := by omega
        have h4 := hexact e (List.mem_cons_self _ _)
        exact (pathLen_zero _ _ _ _ h4.1 h2).symm
  · intro p hp
    rw [← hlr] at hp
    obtain ⟨e, he, rfl⟩ := List.mem_map.1 hp
    exact ⟨e.2, hexact e he⟩
  · rw [← hlr, List.pairwise_map]
    rw [List.pairwise_map] at hs
    refine List.Pairwise.imp_of_mem ?_ hs
    intro e f he hf hle dp dq hdp hdq
    have h1 := hdp.2 _ (hexact e he).1
    have h2 := (hexact f hf).2 _ hdq.1
    omega

theorem iterPages_breadth_first_witness :
    LeavesPages alwaysContinue ∧ AlwaysContinues alwaysContinue ∧
      IsPageStructure bookABCD ∧ DistinctIDs id bookABCD ∧
      linkCount bookABCD.mem + 1 ≤ 5 ∧
      (iterPages id bookABCD alwaysContinue 5 ()).calls = [0, 1, 2, 3] ∧
      (iterPages id bookABCD alwaysContinue 5 ()).calls
        = firstOccurrences (bookABCD.RootPage ::
            (iterPages id bookABCD alwaysContinue 5 ()).calls.flatMap (pagesOf bookABCD.mem)) :=
  ⟨fun _ _ _ => rfl, fun _ _ _ => rfl,
    isPageStructure_of_closed bookABCD (by decide),
    distinctIDs_of_nodup id bookABCD (by decide),
    by decide, by decide,
    (iterPages_breadth_first id bookABCD alwaysContinue () (fun _ _ _ => rfl)
      (fun _ _ _ => rfl) (isPageStructure_of_closed bookABCD (by decide))
      (distinctIDs_of_nodup id bookABCD (by decide)) 5 (by decide)).2.2.2.2⟩

theorem pathLen_one (mem : List Page) (a c n : Nat) (h : PathLen mem a c n) (hn : n = 1) :
    ∃ pg, mem[a]? = some pg ∧ c ∈ pg.Pages := by
  cases h with
  | here => cases hn
  | @link _ b _ m pg ha hb hrest =>
    have hm : m = 0 := by omega
    have := pathLen_zero mem b c m hrest hm
    subst this
    exact ⟨pg, ha, hb⟩

/-- C4 fails for a callback that renames pages: on the graph A → B, A → C, B → D,
B → A the always-true callback that renames each page the first time it is given
it is called on D, two links from the root, before its second call on the root A. -/
theorem iterPages_breadth_first_counterexample :
    AlwaysContinues renameOnce ∧ IsPageStructure bookABCD ∧ DistinctIDs id bookABCD ∧
      (iterPages id bookABCD renameOnce 20 []).outcome = Outcome.finished ∧
      (iterPages id bookABCD renameOnce 20 []).calls = [0, 1, 2, 3, 0, 1, 2, 3] ∧
      IsDist bookABCD.mem bookABCD.RootPage 3 2 ∧
      IsDist bookABCD.mem bookABCD.RootPage 0 0 ∧
      ¬ (iterPages id bookABCD renameOnce 20 []).calls.Pairwise
        (fun p q => ∀ dp dq, IsDist bookABCD.mem bookABCD.RootPage p dp →
          IsDist bookABCD.mem bookABCD.RootPage q dq → dp ≤ dq) := by
  have hcalls : (iterPages id bookABCD renameOnce 20 []).calls = [0, 1, 2, 3, 0, 1, 2, 3] := by
    decide
  have hd3 : IsDist bookABCD.mem bookABCD.RootPage 3 2 := by
    constructor
    · exact @PathLen.link bookABCD.mem 0 1 3 1 ⟨"A", [1, 2]⟩ rfl (by decide)
        (@PathLen.link bookABCD.mem 1 3 3 0 ⟨"B", [3, 0]⟩ rfl (by decide) (PathLen.here 3))
    · intro n hn
      match n, hn with
      | 0, hn =>
        have := pathLen_zero _ _ _ _ hn rfl
        exact absurd this (by decide)
      | 1, hn =>
        obtain ⟨pg, hpg, hmem⟩ := pathLen_one _ _ _ _ hn rfl
        have hpg2 : pg = ⟨"A", [1, 2]⟩ := by
          have : bookABCD.mem[bookABCD.RootPage]? = some ⟨"A", [1, 2]⟩ := rfl
          rw [this] at hpg
          cases hpg
          rfl
        subst hpg2
        exact absurd hmem (by decide)
      | n + 2, _ => omega
  have hd0 : IsDist bookABCD.mem bookABCD.RootPage 0 0 :=
    ⟨PathLen.here 0, fun n _ => Nat.zero_le n⟩
  refine ⟨renameOnce_continues, isPageStructure_of_closed bookABCD (by decide),
    distinctIDs_of_nodup id bookABCD (by decide), by decide, hcalls, hd3, hd0, ?_⟩
  intro h
  rw [hcalls] at h
  have h1 := (List.pairwise_cons.1 h).2
  have h2 := (List.pairwise_cons.1 h1).2
  have h3 := (List.pairwise_cons.1 h2).2
  have h4 := (List.pairwise_cons.1 h3).1 0 (by decide)
  have := h4 2 0 hd3 hd0
  omega

/-- C9: for every CPU count `n` (any `int` value for which `n - 2` does not
overflow), `getAlmostMaxProcs` returns `max(1, n - 2)`; the result is at least 1 and,
when `n` is at least 2, strictly less than `n`. -/
theorem getAlmostMaxProcs_spec (n : Int) (hlo : -(2 ^ 63) + 2 ≤ n) (hhi : n < 2 ^ 63) :
    getAlmostMaxProcs n = max 1 (n - 2) ∧ 1 ≤ getAlmostMaxProcs n ∧
      (2 ≤ n → getAlmostMaxProcs n < n) := by
  have hw : wrapInt64 (n - 2) = n - 2 := by
    unfold wrapInt64
    omega
  unfold getAlmostMaxProcs
  simp only [hw]
  refine ⟨?_, ?_, ?_⟩
  · by_cases h : n - 2 < 1
    · rw [if_pos h]; omega
    · rw [if_neg h]; omega
  · by_cases h : n - 2 < 1
    · rw [if_pos h]
    · rw [if_neg h]; omega
  · intro h2
    by_cases h : n - 2 < 1
    · rw [if_pos h]; omega
    · rw [if_neg h]; omega

theorem getAlmostMaxProcs_spec_witness :
    (-(2 ^ 63) + 2 ≤ (8 : Int) ∧ (8 : Int) < 2 ^ 63) ∧
      (getAlmostMaxProcs 8 = max 1 (8 - 2) ∧ 1 ≤ getAlmostMaxProcs 8 ∧
        (2 ≤ (8 : Int) → getAlmostMaxProcs 8 < 8)) :=
  ⟨⟨by decide, by decide⟩, getAlmostMaxProcs_spec 8 (by decide) (by decide)⟩

/-! ## The file system primitives -/

theorem extends_refl (fs : FS) : Extends fs fs :=
  fun _ => ⟨fun _ h => h, fun names h => ⟨names, h, fun _ hn => hn⟩⟩

theorem extends_trans (fs1 fs2 fs3 : FS) (h12 : Extends fs1 fs2) (h23 : Extends fs2 fs3) :
    Extends fs1 fs3 := by
  intro p
  constructor
  · intro data h
    exact (h23 p).1 data ((h12 p).1 data h)
  · intro names h
    obtain ⟨n2, h2, hsub2⟩ := (h12 p).2 names h
    obtain ⟨n3, h3, hsub3⟩ := (h23 p).2 n2 h2
    exact ⟨n3, h3, fun n hn => hsub3 n (hsub2 n hn)⟩

theorem extends_exists (fs fs2 : FS) (h : Extends fs fs2) (p : Path)
    (hp : pathExists fs p = true) : pathExists fs2 p = true := by
  unfold pathExists at hp ⊢
  cases hfs : fs p with
  | none => simp [hfs] at hp
  | some node =>
    cases node with
    | file data => rw [(h p).1 data hfs]; rfl
    | dir names =>
      obtain ⟨n2, h2, _⟩ := (h p).2 names hfs
      rw [h2]; rfl

theorem extends_isDir (fs fs2 : FS) (h : Extends fs fs2) (p : Path)
    (hp : isDirAt fs p = true) : isDirAt fs2 p = true := by
  unfold isDirAt at hp ⊢
  cases hfs : fs p with
  | none => simp [hfs] at hp
  | some node =>
    cases node with
    | file data => simp [hfs] at hp
    | dir names =>
      obtain ⟨n2, h2, _⟩ := (h p).2 names hfs
      rw [h2]

theorem set_same (fs : FS) (p : Path) (node : Node) : (fs.set p node) p = some node := by
  simp [FS.set]

theorem set_other (fs : FS) (p q : Path) (node : Node) (h : q ≠ p) :
    (fs.set p node) q = fs q := by
  simp [FS.set, h]

/-- What `addEntry` changes: the entry and the names of its directory. -/
theorem addEntry_spec (fs fs1 : FS) (parent : Path) (name : String) (node : Node)
    (h : addEntry fs parent name node = some fs1) :
    fs1 (name :: parent) = some node ∧
      (∃ names names2, fs parent = some (Node.dir names) ∧
        fs1 parent = some (Node.dir names2) ∧ ∀ n ∈ names, n ∈ names2) ∧
      ∀ p, p ≠ parent → p ≠ name :: parent → fs1 p = fs p := by
  unfold addEntry at h
  cases hpar : fs parent with
  | none => simp [hpar] at h
  | some nd =>
    cases nd with
    | file data => simp [hpar] at h
    | dir names =>
      simp only [hpar, Option.some.injEq] at h
      subst h
      have hne : parent ≠ name :: parent := by
        intro e
        have := congrArg List.length e
        simp at this
      refine ⟨set_same _ _ _,
        ⟨names, if name ∈ names then names else names ++ [name], rfl, ?_, ?_⟩, ?_⟩
      · rw [set_other _ _ _ _ hne, set_same]
      · intro n hn
        by_cases hmem : name ∈ names
        · rw [if_pos hmem]; exact hn
        · rw [if_neg hmem]; exact List.mem_append_left _ hn
      · intro p h1 h2
        rw [set_other _ _ _ _ h2, set_other _ _ _ _ h1]

theorem addEntry_extends (fs fs1 : FS) (parent : Path) (name : String) (node : Node)
    (h : addEntry fs parent name node = some fs1) (hfree : fs (name :: parent) = none) :
    Extends fs fs1 := by
  obtain ⟨_, ⟨names, names2, hpar, hpar1, hsub⟩, hframe⟩ := addEntry_spec _ _ _ _ _ h
  intro p
  by_cases h1 : p = parent
  · subst h1
    constructor
    · intro data hd
      rw [hpar] at hd
      cases hd
    · intro ns hd
      rw [hpar] at hd
      cases hd
      exact ⟨names2, hpar1, hsub⟩
  · by_cases h2 : p = name :: parent
    · subst h2
      constructor
      · intro data hd
        rw [hfree] at hd
        cases hd
      · intro ns hd
        rw [hfree] at hd
        cases hd
    · rw [hframe p h1 h2]
      exact extends_refl fs p

/-- `createDirMust` changes nothing outside the directory and its ancestors. -/
theorem createDirMust_frame (fs fs1 : FS) (d : Path) (h : createDirMust fs d = some fs1)
    (p : Path) (hp : ¬ p <:+ d) : fs1 p = fs p := by
  induction d generalizing fs fs1 with
  | nil =>
    simp only [createDirMust] at h
    by_cases hd : isDirAt fs [] = true
    · rw [if_pos hd] at h
      cases h
      rfl
    · rw [if_neg hd] at h
      cases h
  | cons name parent ih =>
    simp only [createDirMust] at h
    cases hfs : fs (name :: parent) with
    | some node =>
      cases node with
      | file data => simp [hfs] at h
      | dir names =>
        simp only [hfs, Option.some.injEq] at h
        subst h
        rfl
    | none =>
      simp only [hfs] at h
      cases hrec : createDirMust fs parent with
      | none => simp [hrec] at h
      | some fs0 =>
        simp only [hrec] at h
        obtain ⟨_, _, hframe⟩ := addEntry_spec _ _ _ _ _ h
        have hp1 : p ≠ name :: parent := fun e => hp (e ▸ List.suffix_refl _)
        have hp2 : ¬ p <:+ parent := fun e => hp (e.trans (List.suffix_cons _ _))
        have hp3 : p ≠ parent := fun e => hp2 (e ▸ List.suffix_refl _)
        rw [hframe p hp3 hp1]
        exact ih fs fs0 hrec hp2

theorem createDirMust_extends (fs fs1 : FS) (d : Path) (h : createDirMust fs d = some fs1) :
    Extends fs fs1 := by
  induction d generalizing fs fs1 with
  | nil =>
    simp only [createDirMust] at h
    by_cases hd : isDirAt fs [] = true
    · rw [if_pos hd] at h
      cases h
      exact extends_refl _
    · rw [if_neg hd] at h
      cases h
  | cons name parent ih =>
    simp only [createDirMust] at h
    cases hfs : fs (name :: parent) with
    | some node =>
      cases node with
      | file data => simp [hfs] at h
      | dir names =>
        simp only [hfs, Option.some.injEq] at h
        subst h
        exact extends_refl _
    | none =>
      simp only [hfs] at h
      cases hrec : createDirMust fs parent with
      | none => simp [hrec] at h
      | some fs0 =>
        simp only [hrec] at h
        have hfree : fs0 (name :: parent) = none := by
          rw [createDirMust_frame fs fs0 parent hrec (name :: parent) ?_, hfs]
          intro hsuf
          have := List.IsSuffix.length_le hsuf
          simp at this
        exact extends_trans _ _ _ (ih fs fs0 hrec) (addEntry_extends _ _ _ _ _ h hfree)

theorem createDirMust_isDir (fs fs1 : FS) (d : Path) (h : createDirMust fs d = some fs1) :
    isDirAt fs1 d = true := by
  cases d with
  | nil =>
    simp only [createDirMust] at h
    by_cases hd : isDirAt fs [] = true
    · rw [if_pos hd] at h
      cases h
      exact hd
    · rw [if_neg hd] at h
      cases h
  | cons name parent =>
    simp only [createDirMust] at h
    cases hfs : fs (name :: parent) with
    | some node =>
      cases node with
      | file data => simp [hfs] at h
      | dir names =>
        simp only [hfs, Option.some.injEq] at h
        subst h
        simp [isDirAt, hfs]
    | none =>
      simp only [hfs] at h
      cases hrec : createDirMust fs parent with
      | none => simp [hrec] at h
      | some fs0 =>
        simp only [hrec] at h
        obtain ⟨hnew, _, _⟩ := addEntry_spec _ _ _ _ _ h
        simp [isDirAt, hnew]

/-- `createDirMust` on an existing directory changes nothing. -/
theorem createDirMust_of_isDir (fs : FS) (d : Path) (h : isDirAt fs d = true) :
    createDirMust fs d = some fs := by
  cases d with
  | nil => simp [createDirMust, h]
  | cons name parent =>
    simp only [createDirMust]
    unfold isDirAt at h
    cases hfs : fs (name :: parent) with
    | none => simp [hfs] at h
    | some node =>
      cases node with
      | file data => simp [hfs] at h
      | dir names => rfl

/-- A successful `copyFileMust` stores the bytes of the source as an entry of the
directory of the destination. -/
theorem copyFileMust_spec (fs fs1 : FS) (dst src : Path)
    (h : copyFileMust fs dst src = some fs1) :
    ∃ name parent data, dst = name :: parent ∧ fs src = some (Node.file data) ∧
      addEntry fs parent name (Node.file data) = some fs1 := by
  unfold copyFileMust at h
  cases hsrc : fs src with
  | none => simp [hsrc] at h
  | some node =>
    cases node with
    | dir names => simp [hsrc] at h
    | file data =>
      simp only [hsrc] at h
      cases dst with
      | nil => simp at h
      | cons name parent =>
        simp only at h
        cases hdst : fs (name :: parent) with
        | none =>
          simp only [hdst] at h
          exact ⟨name, parent, data, rfl, rfl, h⟩
        | some nd =>
          cases nd with
          | dir names => simp [hdst] at h
          | file d2 =>
            simp only [hdst] at h
            exact ⟨name, parent, data, rfl, rfl, h⟩

theorem copyFileMust_extends (fs fs1 : FS) (dst src : Path)
    (h : copyFileMust fs dst src = some fs1) (hfree : pathExists fs dst = false) :
    Extends fs fs1 := by
  obtain ⟨name, parent, data, rfl, _, hadd⟩ := copyFileMust_spec _ _ _ _ h
  apply addEntry_extends _ _ _ _ _ hadd
  unfold pathExists at hfree
  cases hfs : fs (name :: parent) with
  | none => rfl
  | some nd => simp [hfs] at hfree

theorem copyFileMust_frame (fs fs1 : FS) (name : String) (parent src : Path)
    (h : copyFileMust fs (name :: parent) src = some fs1) (p : Path)
    (h1 : p ≠ parent) (h2 : p ≠ name :: parent) : fs1 p = fs p := by
  obtain ⟨name2, parent2, data, he, _, hadd⟩ := copyFileMust_spec _ _ _ _ h
  cases he
  exact (addEntry_spec _ _ _ _ _ hadd).2.2 p h1 h2

theorem copyFileMust_exists (fs fs1 : FS) (dst src : Path)
    (h : copyFileMust fs dst src = some fs1) : pathExists fs1 dst = true := by
  obtain ⟨name, parent, data, rfl, _, hadd⟩ := copyFileMust_spec _ _ _ _ h
  simp [pathExists, (addEntry_spec _ _ _ _ _ hadd).1]

/-! ## Every action of a run is certified -/

theorem certified_mono (f : Option (String → Bool)) (dstDir srcDir : Path)
    (seen seen2 : List Path) (fs : FS) (tr : List Action) (fs2 : FS)
    (h : Certified f dstDir srcDir seen fs tr fs2) (hsub : ∀ p ∈ seen, p ∈ seen2) :
    Certified f dstDir srcDir seen2 fs tr fs2 := by
  induction tr generalizing seen seen2 fs with
  | nil => exact h
  | cons a rest ih =>
    cases a with
    | createDir d =>
      obtain ⟨⟨rel, hd, hpar⟩, fs1, hfs1, hrest⟩ := h
      refine ⟨⟨rel, hd, ?_⟩, fs1, hfs1, ih _ _ _ hrest ?_⟩
      · rcases hpar with h0 | ⟨name, up, hrel, hup⟩
        · exact Or.inl h0
        · exact Or.inr ⟨name, up, hrel, hsub _ hup⟩
      · intro p hp
        rcases List.mem_cons.1 hp with rfl | hp
        · exact List.mem_cons_self _ _
        · exact List.mem_cons_of_mem _ (hsub p hp)
    | copyFile d s =>
      obtain ⟨⟨rel, name, hd, hs, hpar⟩, hacc, hfree, fs1, hfs1, hrest⟩ := h
      exact ⟨⟨rel, name, hd, hs, hsub _ hpar⟩, hacc, hfree, fs1, hfs1, ih _ _ _ hrest hsub⟩

theorem certified_append (f : Option (String → Bool)) (dstDir srcDir : Path)
    (seen : List Path) (fs fs1 fs2 : FS) (t1 t2 : List Action)
    (h1 : Certified f dstDir srcDir seen fs t1 fs1)
    (h2 : ∀ seen2, (∀ p ∈ seen, p ∈ seen2) → Certified f dstDir srcDir seen2 fs1 t2 fs2) :
    Certified f dstDir srcDir seen fs (t1 ++ t2) fs2 := by
  induction t1 generalizing seen fs with
  | nil =>
    simp only [Certified] at h1
    subst h1
    exact h2 seen (fun _ hp => hp)
  | cons a rest ih =>
    cases a with
    | createDir d =>
      obtain ⟨hd, fs0, hfs0, hrest⟩ := h1
      refine ⟨hd, fs0, hfs0, ih _ _ hrest ?_⟩
      intro seen2 hsub
      exact h2 seen2 (fun p hp => hsub p (List.mem_cons_of_mem _ hp))
    | copyFile d s =>
      obtain ⟨hd, hacc, hfree, fs0, hfs0, hrest⟩ := h1
      exact ⟨hd, hacc, hfree, fs0, hfs0, ih _ _ hrest h2⟩

/-- The certificate of the recursive call on an entry is a certificate for the
calling directory, once the calling directory has been created. -/
theorem certified_lift (f : Option (String → Bool)) (dstDir srcDir : Path) (name : String)
    (seen : List Path) (fs : FS) (tr : List Action) (fs2 : FS)
    (h : Certified f (name :: dstDir) (name :: srcDir) seen fs tr fs2)
    (hseen : dstDir ∈ seen) : Certified f dstDir srcDir seen fs tr fs2 := by
  induction tr generalizing seen fs with
  | nil => exact h
  | cons a rest ih =>
    cases a with
    | createDir d =>
      obtain ⟨⟨rel, hd, hpar⟩, fs1, hfs1, hrest⟩ := h
      refine ⟨⟨rel ++ [name], by simp [hd], Or.inr ?_⟩, fs1, hfs1,
        ih _ _ hrest (List.mem_cons_of_mem _ hseen)⟩
      rcases hpar with h0 | ⟨n, up, hrel, hup⟩
      · subst h0
        exact ⟨name, [], rfl, hseen⟩
      · subst hrel
        exact ⟨n, up ++ [name], rfl, by simpa using hup⟩
    | copyFile d s =>
      obtain ⟨⟨rel, n, hd, hs, hpar⟩, hacc, hfree, fs1, hfs1, hrest⟩ := h
      exact ⟨⟨rel ++ [name], n, by simp [hd], by simp [hs], by simpa using hpar⟩, hacc, hfree,
        fs1, hfs1, ih _ _ hrest hseen⟩

theorem copyLoop_nil (recur : Path → Path → FS → Result) (f : Option (String → Bool))
    (dstDir srcDir : Path) (fs : FS) :
    copyLoop recur f dstDir srcDir [] fs = ⟨fs, [], Status.ok⟩ := rfl

/-- The loop body on a directory entry. -/
theorem copyLoop_dir (recur : Path → Path → FS → Result) (f : Option (String → Bool))
    (dstDir srcDir : Path) (name : String) (rest : List FileInfo) (fs : FS) :
    copyLoop recur f dstDir srcDir (⟨name, true⟩ :: rest) fs =
      if (recur (name :: dstDir) (name :: srcDir) fs).status = Status.ok then
        (copyLoop recur f dstDir srcDir rest (recur (name :: dstDir) (name :: srcDir) fs).fs).after
          (recur (name :: dstDir) (name :: srcDir) fs).trace
      else recur (name :: dstDir) (name :: srcDir) fs := by
  simp only [copyLoop, joinPath, if_true]
  cases h : (recur (name :: dstDir) (name :: srcDir) fs).status <;> simp

/-- The loop body on a regular file. -/
theorem copyLoop_file (recur : Path → Path → FS → Result) (f : Option (String → Bool))
    (dstDir srcDir : Path) (name : String) (rest : List FileInfo) (fs : FS) :
    copyLoop recur f dstDir srcDir (⟨name, false⟩ :: rest) fs =
      if shouldCopy f (name :: srcDir) = false then copyLoop recur f dstDir srcDir rest fs
      else if pathExists fs (name :: dstDir) = true then copyLoop recur f dstDir srcDir rest fs
      else match copyFileMust fs (name :: dstDir) (name :: srcDir) with
        | none => ⟨fs, [], Status.panicked⟩
        | some fs1 => (copyLoop recur f dstDir srcDir rest fs1).after
            [Action.copyFile (name :: dstDir) (name :: srcDir)] := by
  simp only [copyLoop, joinPath, Bool.false_eq_true, if_false]
  cases shouldCopy f (name :: srcDir) <;> simp

theorem copyFilesRecur_zero (f : Option (String → Bool)) (dstDir srcDir : Path) (fs : FS) :
    copyFilesRecur f 0 dstDir srcDir fs = ⟨fs, [], Status.outOfFuel⟩ := rfl

theorem copyFilesRecur_succ (f : Option (String → Bool)) (fuel : Nat) (dstDir srcDir : Path)
    (fs : FS) :
    copyFilesRecur f (fuel + 1) dstDir srcDir fs =
      match createDirMust fs dstDir with
      | none => ⟨fs, [], Status.panicked⟩
      | some fs1 =>
        match readDir fs1 srcDir with
        | none => ⟨fs1, [Action.createDir dstDir], Status.panicked⟩
        | some fileInfos =>
          (copyLoop (copyFilesRecur f fuel) f dstDir srcDir fileInfos fs1).after
            [Action.createDir dstDir] := rfl

theorem copyLoop_certified (recur : Path → Path → FS → Result) (f : Option (String → Bool))
    (dstDir srcDir : Path)
    (hrec : ∀ d s fs seen, Certified f d s seen fs (recur d s fs).trace (recur d s fs).fs)
    (es : List FileInfo) (fs : FS) (seen : List Path) (hseen : dstDir ∈ seen) :
    Certified f dstDir srcDir seen fs (copyLoop recur f dstDir srcDir es fs).trace
      (copyLoop recur f dstDir srcDir es fs).fs := by
  induction es generalizing fs seen with
  | nil => rfl
  | cons e rest ih =>
    obtain ⟨name, isd⟩ := e
    cases isd with
    | true =>
      rw [copyLoop_dir]
      have hsub := certified_lift f dstDir srcDir name seen fs _ _
        (hrec (name :: dstDir) (name :: srcDir) fs seen) hseen
      by_cases hok : (recur (name :: dstDir) (name :: srcDir) fs).status = Status.ok
      · rw [if_pos hok]
        exact certified_append f dstDir srcDir seen fs _ _ _ _ hsub
          (fun seen2 hs => ih _ seen2 (hs _ hseen))
      · rw [if_neg hok]
        exact hsub
    | false =>
      rw [copyLoop_file]
      by_cases hacc : shouldCopy f (name :: srcDir) = false
      · rw [if_pos hacc]
        exact ih fs seen hseen
      · rw [if_neg hacc]
        by_cases hex : pathExists fs (name :: dstDir) = true
        · rw [if_pos hex]
          exact ih fs seen hseen
        · rw [if_neg hex]
          cases hcp : copyFileMust fs (name :: dstDir) (name :: srcDir) with
          | none => rfl
          | some fs1 =>
            refine ⟨⟨[], name, rfl, rfl, hseen⟩, ?_, ?_, fs1, hcp, ih fs1 seen hseen⟩
            · simpa using hacc
            · simpa using hex

/-- Every action of a run of `copyFilesRecur` is certified, however the run ends. -/
theorem copyFilesRecur_certified (f : Option (String → Bool)) (fuel : Nat)
    (dstDir srcDir : Path) (fs : FS) (seen : List Path) :
    Certified f dstDir srcDir seen fs (copyFilesRecur f fuel dstDir srcDir fs).trace
      (copyFilesRecur f fuel dstDir srcDir fs).fs := by
  induction fuel generalizing dstDir srcDir fs seen with
  | zero => rfl
  | succ fuel ih =>
    rw [copyFilesRecur_succ]
    cases hmk : createDirMust fs dstDir with
    | none => rfl
    | some fs1 =>
      simp only
      cases hrd : readDir fs1 srcDir with
      | none => exact ⟨⟨[], rfl, Or.inl rfl⟩, fs1, hmk, rfl⟩
      | some es =>
        exact ⟨⟨[], rfl, Or.inl rfl⟩, fs1, hmk,
          copyLoop_certified _ f dstDir srcDir (fun d s fs seen => ih d s fs seen) es fs1
            (dstDir :: seen) (List.mem_cons_self _ _)⟩

/-! ## What a certificate implies -/

theorem certified_replay (f : Option (String → Bool)) (dstDir srcDir : Path)
    (seen : List Path) (fs : FS) (tr : List Action) (fs2 : FS)
    (h : Certified f dstDir srcDir seen fs tr fs2) : replay fs tr = fs2 := by
  induction tr generalizing seen fs with
  | nil => exact h.symm
  | cons a rest ih =>
    cases a with
    | createDir d =>
      obtain ⟨_, fs1, hfs1, hrest⟩ := h
      have := ih _ _ hrest
      simpa [replay, applyAction, hfs1] using this
    | copyFile d s =>
      obtain ⟨_, _, _, fs1, hfs1, hrest⟩ := h
      have := ih _ _ hrest
      simpa [replay, applyAction, hfs1] using this

theorem certified_extends (f : Option (String → Bool)) (dstDir srcDir : Path)
    (seen : List Path) (fs : FS) (tr : List Action) (fs2 : FS)
    (h : Certified f dstDir srcDir seen fs tr fs2) : Extends fs fs2 := by
  induction tr generalizing seen fs with
  | nil =>
    simp only [Certified] at h
    subst h
    exact extends_refl _
  | cons a rest ih =>
    cases a with
    | createDir d =>
      obtain ⟨_, fs1, hfs1, hrest⟩ := h
      exact extends_trans _ _ _ (createDirMust_extends _ _ _ hfs1) (ih _ _ hrest)
    | copyFile d s =>
      obtain ⟨_, _, hfree, fs1, hfs1, hrest⟩ := h
      exact extends_trans _ _ _ (copyFileMust_extends _ _ _ _ hfs1 hfree) (ih _ _ hrest)

/-- A run changes nothing at a path that is neither below `dstDir` nor one of its
ancestors. -/
theorem certified_frame (f : Option (String → Bool)) (dstDir srcDir : Path)
    (seen : List Path) (fs : FS) (tr : List Action) (fs2 : FS)
    (h : Certified f dstDir srcDir seen fs tr fs2) (p : Path)
    (hp1 : ¬ p <:+ dstDir) (hp2 : ¬ dstDir <:+ p) : fs2 p = fs p := by
  induction tr generalizing seen fs with
  | nil =>
    simp only [Certified] at h
    rw [h]
  | cons a rest ih =>
    cases a with
    | createDir d =>
      obtain ⟨⟨rel, hd, _⟩, fs1, hfs1, hrest⟩ := h
      rw [ih _ _ hrest]
      apply createDirMust_frame _ _ _ hfs1
      intro hsuf
      have hds : dstDir <:+ d := ⟨rel, hd.symm⟩
      rcases List.suffix_or_suffix_of_suffix hsuf hds with h1 | h1
      · exact hp1 h1
      · exact hp2 h1
    | copyFile d s =>
      obtain ⟨⟨rel, name, hd, _, _⟩, _, _, fs1, hfs1, hrest⟩ := h
      rw [ih _ _ hrest]
      subst hd
      apply copyFileMust_frame _ _ _ _ _ hfs1
      · intro e
        exact hp2 ⟨rel, e.symm⟩
      · intro e
        exact hp2 ⟨name :: rel, e.symm⟩

/-- The certificate of the rest of a trace, at the state its first part leads to. -/
theorem certified_split (f : Option (String → Bool)) (dstDir srcDir : Path)
    (seen : List Path) (fs : FS) (pre rest : List Action) (fs2 : FS)
    (h : Certified f dstDir srcDir seen fs (pre ++ rest) fs2) :
    ∃ seen2, (∀ p ∈ seen2, p ∈ seen ∨ Action.createDir p ∈ pre) ∧
      Certified f dstDir srcDir seen2 (replay fs pre) rest fs2 := by
  induction pre generalizing seen fs with
  | nil => exact ⟨seen, fun p hp => Or.inl hp, h⟩
  | cons a pre ih =>
    cases a with
    | createDir d =>
      obtain ⟨_, fs1, hfs1, hrest⟩ := h
      obtain ⟨seen2, hsub, hc⟩ := ih _ _ hrest
      refine ⟨seen2, ?_, by simpa [replay, applyAction, hfs1] using hc⟩
      intro p hp
      rcases hsub p hp with h1 | h1
      · rcases List.mem_cons.1 h1 with rfl | h1
        · exact Or.inr (List.mem_cons_self _ _)
        · exact Or.inl h1
      · exact Or.inr (List.mem_cons_of_mem _ h1)
    | copyFile d s =>
      obtain ⟨_, _, _, fs1, hfs1, hrest⟩ := h
      obtain ⟨seen2, hsub, hc⟩ := ih _ _ hrest
      refine ⟨seen2, ?_, by simpa [replay, applyAction, hfs1] using hc⟩
      intro p hp
      rcases hsub p hp with h1 | h1
      · exact Or.inl h1
      · exact Or.inr (List.mem_cons_of_mem _ h1)

/-- No copy of a certified trace goes to a path that existed at the start, and no
two copies go to the same path. -/
theorem certified_copies (f : Option (String → Bool)) (dstDir srcDir : Path)
    (seen : List Path) (fs : FS) (tr : List Action) (fs2 : FS)
    (h : Certified f dstDir srcDir seen fs tr fs2) :
    (∀ d ∈ copyDsts tr, pathExists fs d = false) ∧ (copyDsts tr).Nodup := by
  induction tr generalizing seen fs with
  | nil => simp [copyDsts]
  | cons a rest ih =>
    cases a with
    | createDir d =>
      obtain ⟨_, fs1, hfs1, hrest⟩ := h
      obtain ⟨h1, h2⟩ := ih _ _ hrest
      refine ⟨?_, h2⟩
      intro p hp
      have hf := h1 p hp
      cases hex : pathExists fs p with
      | false => rfl
      | true =>
        rw [extends_exists _ _ (createDirMust_extends _ _ _ hfs1) p hex] at hf
        cases hf
    | copyFile d s =>
      obtain ⟨_, _, hfree, fs1, hfs1, hrest⟩ := h
      obtain ⟨h1, h2⟩ := ih _ _ hrest
      simp only [copyDsts, List.mem_cons, List.nodup_cons]
      refine ⟨?_, ?_, h2⟩
      · intro p hp
        rcases hp with rfl | hp
        · exact hfree
        · have hf := h1 p hp
          cases hex : pathExists fs p with
          | false => rfl
          | true =>
            rw [extends_exists _ _ (copyFileMust_extends _ _ _ _ hfs1 hfree) p hex] at hf
            cases hf
      · intro hmem
        have hf := h1 d hmem
        rw [copyFileMust_exists _ _ _ _ hfs1] at hf
        cases hf

theorem mem_copyDsts (tr : List Action) (d s : Path) (h : Action.copyFile d s ∈ tr) :
    d ∈ copyDsts tr := by
  induction tr with
  | nil => cases h
  | cons a rest ih =>
    rcases List.mem_cons.1 h with h2 | h2
    · subst h2
      simp [copyDsts]
    · cases a with
      | createDir _ => exact ih h2
      | copyFile _ _ => exact List.mem_cons_of_mem _ (ih h2)

theorem copyDsts_append (t1 t2 : List Action) :
    copyDsts (t1 ++ t2) = copyDsts t1 ++ copyDsts t2 := by
  induction t1 with
  | nil => rfl
  | cons a rest ih =>
    cases a with
    | createDir _ => simpa [copyDsts] using ih
    | copyFile _ _ => simp [copyDsts, ih]

/-! ## Paths as strings -/

theorem mem_sortNames (names : List String) (n : String) : n ∈ sortNames names ↔ n ∈ names :=
  List.mem_insertionSort _

theorem statEntry_name (fs : FS) (dir : Path) (n : String) (e : FileInfo)
    (h : statEntry fs dir n = some e) : e.name = n := by
  unfold statEntry at h
  cases hfs : fs (n :: dir) with
  | none => simp [hfs] at h
  | some node =>
    cases node with
    | file data =>
      simp only [hfs, Option.some.injEq] at h
      rw [← h]
    | dir names =>
      simp only [hfs, Option.some.injEq] at h
      rw [← h]

/-- A directory entry of `ioutil.ReadDir` that is a directory: its name is listed
and its path holds a directory. -/
theorem readDir_dir_iff (fs : FS) (dir : Path) (name : String) :
    (∃ es, readDir fs dir = some es ∧ (⟨name, true⟩ : FileInfo) ∈ es) ↔
      (∃ names, fs dir = some (Node.dir names) ∧ name ∈ names) ∧
        isDirAt fs (name :: dir) = true := by
  unfold readDir
  constructor
  · rintro ⟨es, hes, hmem⟩
    cases hfs : fs dir with
    | none => simp [hfs] at hes
    | some node =>
      cases node with
      | file data => simp [hfs] at hes
      | dir names =>
        simp only [hfs, Option.some.injEq] at hes
        subst hes
        obtain ⟨n, hn, hstat⟩ := List.mem_filterMap.1 hmem
        have hname := statEntry_name _ _ _ _ hstat
        simp only at hname
        subst hname
        refine ⟨⟨names, rfl, (mem_sortNames _ _).1 hn⟩, ?_⟩
        unfold statEntry at hstat
        unfold isDirAt
        cases hc : fs (name :: dir) with
        | none => simp [hc] at hstat
        | some nd =>
          cases nd with
          | file data => simp [hc] at hstat
          | dir ns => rfl
  · rintro ⟨⟨names, hfs, hn⟩, hdir⟩
    refine ⟨_, by rw [hfs], ?_⟩
    apply List.mem_filterMap.2
    refine ⟨name, (mem_sortNames _ _).2 hn, ?_⟩
    unfold isDirAt at hdir
    unfold statEntry
    cases hc : fs (name :: dir) with
    | none => simp [hc] at hdir
    | some nd =>
      cases nd with
      | file data => simp [hc] at hdir
      | dir ns => rfl

theorem readDir_dir_mono (fs fs2 : FS) (h : Extends fs fs2) (dir : Path) (name : String)
    (he : ∃ es, readDir fs dir = some es ∧ (⟨name, true⟩ : FileInfo) ∈ es) :
    ∃ es, readDir fs2 dir = some es ∧ (⟨name, true⟩ : FileInfo) ∈ es := by
  rw [readDir_dir_iff] at he ⊢
  obtain ⟨⟨names, hfs, hn⟩, hdir⟩ := he
  obtain ⟨names2, hfs2, hsub⟩ := (h dir).2 names hfs
  exact ⟨⟨names2, hfs2, hsub _ hn⟩, extends_isDir _ _ h _ hdir⟩

theorem subDir_mono (fs fs2 : FS) (h : Extends fs fs2) (srcDir : Path) (rel : List String)
    (hs : SubDir fs srcDir rel) : SubDir fs2 srcDir rel := by
  induction hs with
  | self srcDir => exact SubDir.self _
  | child he _ ih => exact SubDir.child (readDir_dir_mono _ _ h _ _ he) ih

/-- `ioutil.ReadDir` of a directory depends on nothing but the directory and its
entries. -/
theorem readDir_congr (fs fs2 : FS) (dir : Path) (h : ∀ p, dir <:+ p → fs2 p = fs p) :
    readDir fs2 dir = readDir fs dir := by
  unfold readDir
  rw [h dir (List.suffix_refl _)]
  cases fs dir with
  | none => rfl
  | some node =>
    cases node with
    | file data => rfl
    | dir names =>
      simp only [Option.some.injEq]
      apply List.filterMap_congr
      intro n _
      unfold statEntry
      rw [h (n :: dir) (List.suffix_cons _ _)]

/-! ## Completed runs -/

theorem copyFilesRecur_extends (f : Option (String → Bool)) (fuel : Nat)
    (dstDir srcDir : Path) (fs : FS) :
    Extends fs (copyFilesRecur f fuel dstDir srcDir fs).fs :=
  certified_extends f dstDir srcDir [] fs _ _ (copyFilesRecur_certified f fuel dstDir srcDir fs [])

theorem copyLoop_extends (f : Option (String → Bool)) (fuel : Nat) (dstDir srcDir : Path)
    (es : List FileInfo) (fs : FS) :
    Extends fs (copyLoop (copyFilesRecur f fuel) f dstDir srcDir es fs).fs :=
  certified_extends f dstDir srcDir [dstDir] fs _ _
    (copyLoop_certified _ f dstDir srcDir (fun d s fs seen => copyFilesRecur_certified f fuel d s fs seen)
      es fs [dstDir] (List.mem_singleton.2 rfl))

/-- A completed loop has created the mirror of every directory below each of the
directory entries it went through. -/
theorem copyLoop_subdirs (f : Option (String → Bool)) (fuel : Nat) (dstDir srcDir : Path)
    (hrec : ∀ d s fs, (copyFilesRecur f fuel d s fs).status = Status.ok →
      ∀ rel, SubDir fs s rel → Action.createDir (rel ++ d) ∈ (copyFilesRecur f fuel d s fs).trace)
    (es : List FileInfo) (fs : FS)
    (hok : (copyLoop (copyFilesRecur f fuel) f dstDir srcDir es fs).status = Status.ok)
    (name : String) (hmem : (⟨name, true⟩ : FileInfo) ∈ es) (rel : List String)
    (hsub : SubDir fs (name :: srcDir) rel) :
    Action.createDir (rel ++ name :: dstDir)
      ∈ (copyLoop (copyFilesRecur f fuel) f dstDir srcDir es fs).trace := by
  induction es generalizing fs with
  | nil => cases hmem
  | cons e rest ih =>
    obtain ⟨n, isd⟩ := e
    cases isd with
    | true =>
      rw [copyLoop_dir] at hok ⊢
      by_cases hs : (copyFilesRecur f fuel (n :: dstDir) (n :: srcDir) fs).status = Status.ok
      · rw [if_pos hs] at hok ⊢
        simp only [Result.after, List.mem_append]
        rcases List.mem_cons.1 hmem with h1 | h1
        · cases h1
          exact Or.inl (hrec _ _ _ hs rel hsub)
        · exact Or.inr (ih _ hok h1 (subDir_mono _ _ (copyFilesRecur_extends _ _ _ _ _) _ _ hsub))
      · rw [if_neg hs] at hok
        exact absurd hok hs
    | false =>
      have hrest : (⟨name, true⟩ : FileInfo) ∈ rest := by
        rcases List.mem_cons.1 hmem with h1 | h1
        · cases h1
        · exact h1
      rw [copyLoop_file] at hok ⊢
      by_cases hacc : shouldCopy f (n :: srcDir) = false
      · rw [if_pos hacc] at hok ⊢
        exact ih _ hok hrest hsub
      · rw [if_neg hacc] at hok ⊢
        by_cases hex : pathExists fs (n :: dstDir) = true
        · rw [if_pos hex] at hok ⊢
          exact ih _ hok hrest hsub
        · rw [if_neg hex] at hok ⊢
          cases hcp : copyFileMust fs (n :: dstDir) (n :: srcDir) with
          | none =>
            rw [hcp] at hok
            cases hok
          | some fs1 =>
            rw [hcp] at hok
            simp only [Result.after, List.singleton_append, List.mem_cons]
            refine Or.inr (ih _ hok hrest (subDir_mono _ _ ?_ _ _ hsub))
            exact copyFileMust_extends _ _ _ _ hcp (by simpa using hex)

/-- A completed run has created the mirror of the source directory and of every
directory below it. -/
theorem copyFilesRecur_subdirs (f : Option (String → Bool)) (fuel : Nat)
    (dstDir srcDir : Path) (fs : FS)
    (hok : (copyFilesRecur f fuel dstDir srcDir fs).status = Status.ok)
    (rel : List String) (hsub : SubDir fs srcDir rel) :
    Action.createDir (rel ++ dstDir) ∈ (copyFilesRecur f fuel dstDir srcDir fs).trace := by
  induction fuel generalizing dstDir srcDir fs rel with
  | zero =>
    rw [copyFilesRecur_zero] at hok
    cases hok
  | succ fuel ih =>
    rw [copyFilesRecur_succ] at hok ⊢
    cases hmk : createDirMust fs dstDir with
    | none =>
      rw [hmk] at hok
      cases hok
    | some fs1 =>
      simp only [hmk] at hok ⊢
      cases hrd : readDir fs1 srcDir with
      | none =>
        rw [hrd] at hok
        cases hok
      | some es =>
        simp only [hrd] at hok ⊢
        simp only [Result.after, List.singleton_append, List.mem_cons]
        cases hsub with
        | self => exact Or.inl rfl
        | @child _ name rel2 he hrest =>
          right
          have hext := createDirMust_extends _ _ _ hmk
          obtain ⟨es2, hes2, hmem⟩ := readDir_dir_mono _ _ hext _ _ he
          rw [hrd] at hes2
          cases hes2
          have := copyLoop_subdirs f fuel dstDir srcDir (fun d s fs h rel hs => ih d s fs h rel hs)
            es fs1 hok name hmem rel2 (subDir_mono _ _ hext _ _ hrest)
          simpa using this

/-! ## Running again -/

theorem disjointTrees_cons (srcDir dstDir : Path) (name : String)
    (h : DisjointTrees srcDir dstDir) : DisjointTrees (name :: srcDir) (name :: dstDir) := by
  obtain ⟨h1, h2⟩ := h
  constructor
  · intro hs
    rcases List.suffix_cons_iff.1 hs with e | e
    · cases e
      exact h1 (List.suffix_refl _)
    · exact h1 ((List.suffix_cons _ _).trans e)
  · intro hs
    rcases List.suffix_cons_iff.1 hs with e | e
    · cases e
      exact h1 (List.suffix_refl _)
    · exact h2 ((List.suffix_cons _ _).trans e)

theorem disjointTrees_not_entry (srcDir dstDir : Path) (name : String)
    (h : DisjointTrees srcDir dstDir) : ¬ srcDir <:+ name :: dstDir := by
  intro hs
  rcases List.suffix_cons_iff.1 hs with e | e
  · subst e
    exact h.2 (List.suffix_cons _ _)
  · exact h.1 e

/-- A path below the source directory is neither below the destination directory
nor one of its ancestors. -/
theorem disjointTrees_apart (srcDir dstDir : Path) (h : DisjointTrees srcDir dstDir)
    (p : Path) (hp : srcDir <:+ p) : ¬ p <:+ dstDir ∧ ¬ dstDir <:+ p := by
  obtain ⟨h1, h2⟩ := h
  constructor
  · intro hs
    exact h1 (hp.trans hs)
  · intro hs
    rcases List.suffix_or_suffix_of_suffix hp hs with e | e
    · exact h1 e
    · exact h2 e

/-- Running the loop again, on a file system that kept what the first run left and
still has the source tree the first run started from, copies nothing and changes
nothing. -/
theorem copyLoop_again (f : Option (String → Bool)) (fuel : Nat) (dstDir srcDir : Path)
    (hdisj : DisjointTrees srcDir dstDir)
    (hrec : ∀ d s fs fs2, DisjointTrees s d →
      (copyFilesRecur f fuel d s fs).status = Status.ok →
      Extends (copyFilesRecur f fuel d s fs).fs fs2 → (∀ p, s <:+ p → fs2 p = fs p) →
      (copyFilesRecur f fuel d s fs2).fs = fs2 ∧
        (copyFilesRecur f fuel d s fs2).status = Status.ok ∧
        copyDsts (copyFilesRecur f fuel d s fs2).trace = [])
    (es : List FileInfo) (fs fs2 : FS)
    (hok : (copyLoop (copyFilesRecur f fuel) f dstDir srcDir es fs).status = Status.ok)
    (hext : Extends (copyLoop (copyFilesRecur f fuel) f dstDir srcDir es fs).fs fs2)
    (hsrc : ∀ p, srcDir <:+ p → fs2 p = fs p) :
    (copyLoop (copyFilesRecur f fuel) f dstDir srcDir es fs2).fs = fs2 ∧
      (copyLoop (copyFilesRecur f fuel) f dstDir srcDir es fs2).status = Status.ok ∧
      copyDsts (copyLoop (copyFilesRecur f fuel) f dstDir srcDir es fs2).trace = [] := by
  induction es generalizing fs with
  | nil => exact ⟨rfl, rfl, rfl⟩
  | cons e rest ih =>
    obtain ⟨n, isd⟩ := e
    cases isd with
    | true =>
      rw [copyLoop_dir] at hok hext
      by_cases hs : (copyFilesRecur f fuel (n :: dstDir) (n :: srcDir) fs).status = Status.ok
      · rw [if_pos hs] at hok hext
        have hext1 : Extends (copyFilesRecur f fuel (n :: dstDir) (n :: srcDir) fs).fs fs2 :=
          extends_trans _ _ _ (copyLoop_extends f fuel dstDir srcDir rest _) hext
        obtain ⟨e1, e2, e3⟩ := hrec (n :: dstDir) (n :: srcDir) fs fs2
          (disjointTrees_cons _ _ _ hdisj) hs hext1
          (fun p hp => hsrc p ((List.suffix_cons _ _).trans hp))
        have hsrc2 : ∀ p, srcDir <:+ p →
            fs2 p = (copyFilesRecur f fuel (n :: dstDir) (n :: srcDir) fs).fs p := by
          intro p hp
          rw [hsrc p hp]
          symm
          apply certified_frame f (n :: dstDir) (n :: srcDir) [] fs _ _
            (copyFilesRecur_certified f fuel _ _ fs [])
          · intro hsuf
            exact disjointTrees_not_entry _ _ n hdisj (hp.trans hsuf)
          · intro hsuf
            exact (disjointTrees_apart _ _ hdisj p hp).2 ((List.suffix_cons _ _).trans hsuf)
        obtain ⟨i1, i2, i3⟩ := ih _ hok hext hsrc2
        rw [copyLoop_dir, if_pos e2, e1]
        refine ⟨i1, i2, ?_⟩
        simp only [Result.after]
        rw [copyDsts_append, e3, i3]
        rfl
      · rw [if_neg hs] at hok
        exact absurd hok hs
    | false =>
      rw [copyLoop_file] at hok hext
      rw [copyLoop_file]
      by_cases hacc : shouldCopy f (n :: srcDir) = false
      · rw [if_pos hacc] at hok hext ⊢
        exact ih _ hok hext hsrc
      · rw [if_neg hacc] at hok hext ⊢
        by_cases hex : pathExists fs (n :: dstDir) = true
        · rw [if_pos hex] at hok hext
          have hex2 : pathExists fs2 (n :: dstDir) = true :=
            extends_exists _ _ (extends_trans _ _ _ (copyLoop_extends f fuel dstDir srcDir rest fs) hext)
              _ hex
          rw [if_pos hex2]
          exact ih _ hok hext hsrc
        · rw [if_neg hex] at hok hext
          cases hcp : copyFileMust fs (n :: dstDir) (n :: srcDir) with
          | none =>
            rw [hcp] at hok
            cases hok
          | some fs1 =>
            rw [hcp] at hok hext
            have hext1 : Extends fs1 fs2 :=
              extends_trans _ _ _ (copyLoop_extends f fuel dstDir srcDir rest fs1) hext
            have hex2 : pathExists fs2 (n :: dstDir) = true :=
              extends_exists _ _ hext1 _ (copyFileMust_exists _ _ _ _ hcp)
            rw [if_pos hex2]
            apply ih _ hok hext
            intro p hp
            rw [hsrc p hp]
            symm
            apply copyFileMust_frame _ _ _ _ _ hcp
            · intro e
              subst e
              exact hdisj.1 hp
            · intro e
              subst e
              exact disjointTrees_not_entry _ _ n hdisj hp

/-- Running `copyFilesRecur` again, on a file system that kept what a completed
first run left and still has the source tree the first run started from, copies
nothing and changes nothing. -/
theorem copyFilesRecur_again (f : Option (String → Bool)) (fuel : Nat)
    (dstDir srcDir : Path) (fs fs2 : FS) (hdisj : DisjointTrees srcDir dstDir)
    (hok : (copyFilesRecur f fuel dstDir srcDir fs).status = Status.ok)
    (hext : Extends (copyFilesRecur f fuel dstDir srcDir fs).fs fs2)
    (hsrc : ∀ p, srcDir <:+ p → fs2 p = fs p) :
    (copyFilesRecur f fuel dstDir srcDir fs2).fs = fs2 ∧
      (copyFilesRecur f fuel dstDir srcDir fs2).status = Status.ok ∧
      copyDsts (copyFilesRecur f fuel dstDir srcDir fs2).trace = [] := by
  induction fuel generalizing dstDir srcDir fs fs2 with
  | zero =>
    rw [copyFilesRecur_zero] at hok
    cases hok
  | succ fuel ih =>
    rw [copyFilesRecur_succ] at hok hext
    cases hmk : createDirMust fs dstDir with
    | none =>
      rw [hmk] at hok
      cases hok
    | some fs1 =>
      simp only [hmk] at hok hext
      cases hrd : readDir fs1 srcDir with
      | none =>
        rw [hrd] at hok
        cases hok
      | some es =>
        simp only [hrd] at hok hext
        have hok1 : (copyLoop (copyFilesRecur f fuel) f dstDir srcDir es fs1).status = Status.ok := hok
        have hext1 : Extends (copyLoop (copyFilesRecur f fuel) f dstDir srcDir es fs1).fs fs2 := hext
        have hdir2 : isDirAt fs2 dstDir = true :=
          extends_isDir _ _ (extends_trans _ _ _ (copyLoop_extends f fuel dstDir srcDir es fs1) hext1)
            _ (createDirMust_isDir _ _ _ hmk)
        have hsrc1 : ∀ p, srcDir <:+ p → fs2 p = fs1 p := by
          intro p hp
          rw [hsrc p hp]
          symm
          exact createDirMust_frame _ _ _ hmk p (disjointTrees_apart _ _ hdisj p hp).1
        have hrd2 : readDir fs2 srcDir = some es := by
          rw [readDir_congr fs1 fs2 srcDir hsrc1, hrd]
        obtain ⟨i1, i2, i3⟩ := copyLoop_again f fuel dstDir srcDir hdisj
          (fun d s fs fs2 hd h1 h2 h3 => ih d s fs fs2 hd h1 h2 h3) es fs1 fs2 hok1 hext1 hsrc1
        rw [copyFilesRecur_succ, createDirMust_of_isDir _ _ hdir2]
        simp only [hrd2]
        exact ⟨i1, i2, by simpa [Result.after, copyDsts] using i3⟩

/-! ## Fuel -/

theorem copyLoop_fuel_mono (recur1 recur2 : Path → Path → FS → Result)
    (f : Option (String → Bool)) (dstDir srcDir : Path)
    (h : ∀ d s fs, (recur1 d s fs).status = Status.ok → recur2 d s fs = recur1 d s fs)
    (es : List FileInfo) (fs : FS)
    (hok : (copyLoop recur1 f dstDir srcDir es fs).status = Status.ok) :
    copyLoop recur2 f dstDir srcDir es fs = copyLoop recur1 f dstDir srcDir es fs := by
  induction es generalizing fs with
  | nil => rfl
  | cons e rest ih =>
    obtain ⟨n, isd⟩ := e
    cases isd with
    | true =>
      rw [copyLoop_dir] at hok ⊢
      rw [copyLoop_dir]
      by_cases hs : (recur1 (n :: dstDir) (n :: srcDir) fs).status = Status.ok
      · rw [if_pos hs] at hok
        rw [h _ _ _ hs, if_pos hs, if_pos hs, ih _ hok]
      · rw [if_neg hs] at hok
        exact absurd hok hs
    | false =>
      rw [copyLoop_file] at hok ⊢
      rw [copyLoop_file]
      by_cases hacc : shouldCopy f (n :: srcDir) = false
      · rw [if_pos hacc] at hok ⊢
        rw [if_pos hacc]
        exact ih _ hok
      · rw [if_neg hacc] at hok ⊢
        rw [if_neg hacc]
        by_cases hex : pathExists fs (n :: dstDir) = true
        · rw [if_pos hex] at hok ⊢
          rw [if_pos hex]
          exact ih _ hok
        · rw [if_neg hex] at hok ⊢
          rw [if_neg hex]
          cases hcp : copyFileMust fs (n :: dstDir) (n :: srcDir) with
          | none => rfl
          | some fs1 =>
            rw [hcp] at hok
            simp only
            rw [ih _ hok]

/-- A call that returned returns the same result when deeper recursion is allowed. -/
theorem copyFilesRecur_fuel_mono (f : Option (String → Bool)) (fuel fuel2 : Nat)
    (dstDir srcDir : Path) (fs : FS)
    (hok : (copyFilesRecur f fuel dstDir srcDir fs).status = Status.ok) (hle : fuel ≤ fuel2) :
    copyFilesRecur f fuel2 dstDir srcDir fs = copyFilesRecur f fuel dstDir srcDir fs := by
  induction fuel generalizing fuel2 dstDir srcDir fs with
  | zero =>
    rw [copyFilesRecur_zero] at hok
    cases hok
  | succ fuel ih =>
    obtain ⟨k, rfl⟩ : ∃ k, fuel2 = k + 1 := ⟨fuel2 - 1, by omega⟩
    rw [copyFilesRecur_succ] at hok ⊢
    rw [copyFilesRecur_succ]
    cases hmk : createDirMust fs dstDir with
    | none => rfl
    | some fs1 =>
      simp only [hmk] at hok ⊢
      cases hrd : readDir fs1 srcDir with
      | none => rfl
      | some es =>
        simp only [hrd] at hok ⊢
        rw [copyLoop_fuel_mono (copyFilesRecur f fuel) (copyFilesRecur f k) f dstDir srcDir
          (fun d s fs0 h0 => ih k d s fs0 h0 (by omega)) es fs1 hok]

theorem depthLE_congr (fs fs2 : FS) (n : Nat) (srcDir : Path)
    (h : ∀ p, srcDir <:+ p → fs2 p = fs p) (hd : DepthLE fs n srcDir) :
    DepthLE fs2 n srcDir := by
  induction n generalizing srcDir with
  | zero =>
    intro name
    rw [readDir_congr fs fs2 srcDir h]
    exact hd name
  | succ n ih =>
    intro name hname
    rw [readDir_congr fs fs2 srcDir h] at hname
    exact ih (name :: srcDir) (fun p hp => h p ((List.suffix_cons _ _).trans hp)) (hd name hname)

theorem copyLoop_fuel_enough (f : Option (String → Bool)) (fuel : Nat) (dstDir srcDir : Path)
    (hdisj : DisjointTrees srcDir dstDir) (fs0 : FS) (es : List FileInfo) (fs : FS)
    (hsrc : ∀ p, srcDir <:+ p → fs p = fs0 p)
    (hrec : ∀ name, (⟨name, true⟩ : FileInfo) ∈ es → ∀ fsj,
      (∀ p, srcDir <:+ p → fsj p = fs0 p) →
      (copyFilesRecur f fuel (name :: dstDir) (name :: srcDir) fsj).status ≠ Status.outOfFuel) :
    (copyLoop (copyFilesRecur f fuel) f dstDir srcDir es fs).status ≠ Status.outOfFuel := by
  induction es generalizing fs with
  | nil =>
    intro h
    cases h
  | cons e rest ih =>
    have hrest : ∀ name, (⟨name, true⟩ : FileInfo) ∈ rest → ∀ fsj,
        (∀ p, srcDir <:+ p → fsj p = fs0 p) →
        (copyFilesRecur f fuel (name :: dstDir) (name :: srcDir) fsj).status
          ≠ Status.outOfFuel :=
      fun name hm => hrec name (List.mem_cons_of_mem _ hm)
    obtain ⟨n, isd⟩ := e
    cases isd with
    | true =>
      rw [copyLoop_dir]
      by_cases hs : (copyFilesRecur f fuel (n :: dstDir) (n :: srcDir) fs).status = Status.ok
      · rw [if_pos hs]
        apply ih _ _ hrest
        intro p hp
        rw [← hsrc p hp]
        apply certified_frame f (n :: dstDir) (n :: srcDir) [] fs _ _
          (copyFilesRecur_certified f fuel _ _ fs [])
        · intro hsuf
          exact disjointTrees_not_entry _ _ n hdisj (hp.trans hsuf)
        · intro hsuf
          exact (disjointTrees_apart _ _ hdisj p hp).2 ((List.suffix_cons _ _).trans hsuf)
      · rw [if_neg hs]
        exact hrec n (List.mem_cons_self _ _) fs hsrc
    | false =>
      rw [copyLoop_file]
      by_cases hacc : shouldCopy f (n :: srcDir) = false
      · rw [if_pos hacc]
        exact ih _ hsrc hrest
      · rw [if_neg hacc]
        by_cases hex : pathExists fs (n :: dstDir) = true
        · rw [if_pos hex]
          exact ih _ hsrc hrest
        · rw [if_neg hex]
          cases hcp : copyFileMust fs (n :: dstDir) (n :: srcDir) with
          | none =>
            intro h
            cases h
          | some fs1 =>
            apply ih _ _ hrest
            intro p hp
            rw [← hsrc p hp]
            apply copyFileMust_frame _ _ _ _ _ hcp
            · intro e
              subst e
              exact hdisj.1 hp
            · intro e
              subst e
              exact disjointTrees_not_entry _ _ n hdisj hp

/-- With disjoint trees the recursion of `copyFilesRecur` is no deeper than the
source tree: one more unit of fuel than the nesting depth of the directories below
`srcDir` is enough for the call to return or to panic. -/
theorem copyFilesRecur_fuel_enough (f : Option (String → Bool)) (n : Nat)
    (dstDir srcDir : Path) (fs : FS) (hdisj : DisjointTrees srcDir dstDir)
    (hdepth : DepthLE fs n srcDir) :
    (copyFilesRecur f (n + 1) dstDir srcDir fs).status ≠ Status.outOfFuel := by
  induction n generalizing dstDir srcDir fs with
  | zero =>
    rw [copyFilesRecur_succ]
    cases hmk : createDirMust fs dstDir with
    | none =>
      intro h
      cases h
    | some fs1 =>
      simp only
      have hsrc : ∀ p, srcDir <:+ p → fs1 p = fs p := fun p hp =>
        createDirMust_frame _ _ _ hmk p (disjointTrees_apart _ _ hdisj p hp).1
      cases hrd : readDir fs1 srcDir with
      | none =>
        intro h
        cases h
      | some es =>
        simp only
        apply copyLoop_fuel_enough f 0 dstDir srcDir hdisj fs es fs1 hsrc
        intro name hname
        have hd := hdepth name
        rw [← readDir_congr fs fs1 srcDir hsrc, hrd] at hd
        exact absurd ⟨es, rfl, hname⟩ hd
  | succ n ih =>
    rw [copyFilesRecur_succ]
    cases hmk : createDirMust fs dstDir with
    | none =>
      intro h
      cases h
    | some fs1 =>
      simp only
      have hsrc : ∀ p, srcDir <:+ p → fs1 p = fs p := fun p hp =>
        createDirMust_frame _ _ _ hmk p (disjointTrees_apart _ _ hdisj p hp).1
      cases hrd : readDir fs1 srcDir with
      | none =>
        intro h
        cases h
      | some es =>
        simp only
        apply copyLoop_fuel_enough f (n + 1) dstDir srcDir hdisj fs es fs1 hsrc
        intro name hname fsj hj
        have hd := hdepth name (by
          rw [← readDir_congr fs fs1 srcDir hsrc, hrd]
          exact ⟨es, rfl, hname⟩)
        exact ih (name :: dstDir) (name :: srcDir) fsj (disjointTrees_cons _ _ _ hdisj)
          (depthLE_congr fs fsj n (name :: srcDir)
            (fun p hp => hj p ((List.suffix_cons _ _).trans hp)) hd)

/-! ## Properties of `copyFilesRecur` -/

/-- What the certificate says of a copy found anywhere in the trace of a run. -/
theorem copyFilesRecur_copy_facts (f : Option (String → Bool)) (fuel : Nat)
    (dstDir srcDir : Path) (fs : FS) (pre post : List Action) (d s : Path)
    (h : (copyFilesRecur f fuel dstDir srcDir fs).trace = pre ++ Action.copyFile d s :: post) :
    pathExists (replay fs pre) d = false ∧ shouldCopy f s = true ∧
      ∃ rel name, d = name :: (rel ++ dstDir) ∧ s = name :: (rel ++ srcDir) ∧
        Action.createDir (rel ++ dstDir) ∈ pre := by
  have hc := copyFilesRecur_certified f fuel dstDir srcDir fs []
  rw [h] at hc
  obtain ⟨seen2, hseen, hc2⟩ := certified_split f dstDir srcDir [] fs pre _ _ hc
  obtain ⟨⟨rel, name, hd, hs, hpar⟩, hacc, hfree, _⟩ := hc2
  refine ⟨hfree, hacc, rel, name, hd, hs, ?_⟩
  rcases hseen _ hpar with h1 | h1
  · cases h1
  · exact h1

/-- C5: for every file system state, every `dstDir`, `srcDir` and predicate (nil
included), and however the call ends, every file that exists before the call holds
the same bytes after it and every path that exists keeps existing; every copy in
the trace goes to a destination for which `pathExists` was false at that moment,
hence to no path that existed before the call; the final state is the one the
actions of the trace produce. -/
theorem copyFilesRecur_no_overwrite (f : Option (String → Bool)) (fuel : Nat)
    (dstDir srcDir : Path) (fs : FS) :
    (∀ p data, fs p = some (Node.file data) →
      (copyFilesRecur f fuel dstDir srcDir fs).fs p = some (Node.file data)) ∧
    (∀ p, pathExists fs p = true →
      pathExists (copyFilesRecur f fuel dstDir srcDir fs).fs p = true) ∧
    (∀ pre d s post,
      (copyFilesRecur f fuel dstDir srcDir fs).trace = pre ++ Action.copyFile d s :: post →
      pathExists (replay fs pre) d = false) ∧
    (∀ d s, Action.copyFile d s ∈ (copyFilesRecur f fuel dstDir srcDir fs).trace →
      pathExists fs d = false) ∧
    replay fs (copyFilesRecur f fuel dstDir srcDir fs).trace
      = (copyFilesRecur f fuel dstDir srcDir fs).fs := by
  have hc := copyFilesRecur_certified f fuel dstDir srcDir fs []
  have hext := certified_extends _ _ _ _ _ _ _ hc
  refine ⟨fun p data hp => (hext p).1 data hp, fun p hp => extends_exists _ _ hext p hp, ?_, ?_,
    certified_replay _ _ _ _ _ _ _ hc⟩
  · intro pre d s post h
    exact (copyFilesRecur_copy_facts f fuel dstDir srcDir fs pre post d s h).1
  · intro d s hmem
    exact (certified_copies _ _ _ _ _ _ _ hc).1 d (mem_copyDsts _ d s hmem)

theorem copyFilesRecur_no_overwrite_witness :
    stagedFS ["a.png", "covers", "www"] = some (Node.file [9, 9]) ∧
      (copyFilesRecur (some shouldCopyImage) 3 ["covers", "www"] ["covers"] stagedFS).fs
          ["a.png", "covers", "www"] = some (Node.file [9, 9]) ∧
      pathExists stagedFS ["b.png", "sub", "covers", "www"] = false :=
  ⟨by decide,
    (copyFilesRecur_no_overwrite (some shouldCopyImage) 3 ["covers", "www"] ["covers"]
      stagedFS).1 ["a.png", "covers", "www"] [9, 9] (by decide),
    (copyFilesRecur_no_overwrite (some shouldCopyImage) 3 ["covers", "www"] ["covers"]
      stagedFS).2.2.2.1 ["b.png", "sub", "covers", "www"] ["b.png", "sub", "covers"] (by decide)⟩

/-- The no-overwrite scenario: `www/covers/a.png` exists with other bytes before
the covers are copied; it keeps them, and the other image is copied. -/
theorem copyCoversMust_keeps_existing :
    (copyCoversMust 3 stagedFS).status = Status.ok ∧
      (copyCoversMust 3 stagedFS).fs ["a.png", "covers", "www"] = some (Node.file [9, 9]) ∧
      (copyCoversMust 3 stagedFS).fs ["b.png", "sub", "covers", "www"] = some (Node.file [8]) ∧
      (copyCoversMust 3 stagedFS).trace = [Action.createDir ["covers", "www"],
        Action.createDir ["sub", "covers", "www"],
        Action.copyFile ["b.png", "sub", "covers", "www"] ["b.png", "sub", "covers"]] := by
  decide

/-- C6: when the source tree and the destination tree are disjoint and a call of
`copyFilesRecur` has returned, the same call made right after it returns too,
performs no file copy and leaves the file system as the first call left it; over
the two calls no destination is copied to twice. -/
theorem copyFilesRecur_idempotent (f : Option (String → Bool)) (fuel : Nat)
    (dstDir srcDir : Path) (fs : FS) (hdisj : DisjointTrees srcDir dstDir)
    (hok : (copyFilesRecur f fuel dstDir srcDir fs).status = Status.ok) :
    (copyFilesRecur f fuel dstDir srcDir (copyFilesRecur f fuel dstDir srcDir fs).fs).status
        = Status.ok ∧
      (∀ d s, Action.copyFile d s ∉
        (copyFilesRecur f fuel dstDir srcDir (copyFilesRecur f fuel dstDir srcDir fs).fs).trace) ∧
      (copyFilesRecur f fuel dstDir srcDir (copyFilesRecur f fuel dstDir srcDir fs).fs).fs
        = (copyFilesRecur f fuel dstDir srcDir fs).fs ∧
      (copyDsts ((copyFilesRecur f fuel dstDir srcDir fs).trace ++
        (copyFilesRecur f fuel dstDir srcDir
          (copyFilesRecur f fuel dstDir srcDir fs).fs).trace)).Nodup := by
  have hc := copyFilesRecur_certified f fuel dstDir srcDir fs []
  have hsrc : ∀ p, srcDir <:+ p → (copyFilesRecur f fuel dstDir srcDir fs).fs p = fs p := by
    intro p hp
    obtain ⟨h1, h2⟩ := disjointTrees_apart _ _ hdisj p hp
    exact certified_frame _ _ _ _ _ _ _ hc p h1 h2
  obtain ⟨e1, e2, e3⟩ := copyFilesRecur_again f fuel dstDir srcDir fs _ hdisj hok
    (extends_refl _) hsrc
  refine ⟨e2, ?_, e1, ?_⟩
  · intro d s hmem
    have := mem_copyDsts _ d s hmem
    rw [e3] at this
    cases this
  · rw [copyDsts_append, e3, List.append_nil]
    exact (certified_copies _ _ _ _ _ _ _ hc).2

theorem copyFilesRecur_idempotent_witness :
    DisjointTrees ["covers"] ["covers", "www"] ∧
      (copyFilesRecur (some shouldCopyImage) 3 ["covers", "www"] ["covers"] coversFS).status
        = Status.ok ∧
      (copyFilesRecur (some shouldCopyImage) 3 ["covers", "www"] ["covers"]
          (copyFilesRecur (some shouldCopyImage) 3 ["covers", "www"] ["covers"] coversFS).fs).status
        = Status.ok ∧
      (∀ d s, Action.copyFile d s ∉
        (copyFilesRecur (some shouldCopyImage) 3 ["covers", "www"] ["covers"]
          (copyFilesRecur (some shouldCopyImage) 3 ["covers", "www"] ["covers"] coversFS).fs).trace) ∧
      (copyFilesRecur (some shouldCopyImage) 3 ["covers", "www"] ["covers"]
          (copyFilesRecur (some shouldCopyImage) 3 ["covers", "www"] ["covers"] coversFS).fs).fs
        = (copyFilesRecur (some shouldCopyImage) 3 ["covers", "www"] ["covers"] coversFS).fs ∧
      (copyDsts ((copyFilesRecur (some shouldCopyImage) 3 ["covers", "www"] ["covers"] coversFS).trace ++
        (copyFilesRecur (some shouldCopyImage) 3 ["covers", "www"] ["covers"]
          (copyFilesRecur (some shouldCopyImage) 3 ["covers", "www"] ["covers"]
            coversFS).fs).trace)).Nodup :=
  ⟨by decide, by decide,
    copyFilesRecur_idempotent (some shouldCopyImage) 3 ["covers", "www"] ["covers"] coversFS
      (by decide) (by decide)⟩

/-- The idempotence scenario: the first call copies two files, the second call
only revisits the two directories. -/
theorem copyCoversMust_twice :
    (copyCoversMust 3 coversFS).trace = [Action.createDir ["covers", "www"],
        Action.copyFile ["a.png", "covers", "www"] ["a.png", "covers"],
        Action.createDir ["sub", "covers", "www"],
        Action.copyFile ["b.png", "sub", "covers", "www"] ["b.png", "sub", "covers"]] ∧
      (copyCoversMust 3 (copyCoversMust 3 coversFS).fs).trace
        = [Action.createDir ["covers", "www"], Action.createDir ["sub", "covers", "www"]] ∧
      (copyCoversMust 3 (copyCoversMust 3 coversFS).fs).status = Status.ok := by
  decide

/-- The covers of the example tree: the high-resolution variant `a@2x.png` is not
copied, with the nil predicate it is. -/
theorem copyCoversMust_skips_variant :
    copyDsts (copyCoversMust 3 coversFS).trace
        = [["a.png", "covers", "www"], ["b.png", "sub", "covers", "www"]] ∧
      copyDsts (copyFilesRecur none 3 ["covers", "www"] ["covers"] coversFS).trace
        = [["a.png", "covers", "www"], ["a@2x.png", "covers", "www"],
            ["b.png", "sub", "covers", "www"]] := by
  decide

/-- What the certificate says of a `createDirMust` found anywhere in the trace of a
run. -/
theorem copyFilesRecur_dir_facts (f : Option (String → Bool)) (fuel : Nat)
    (dstDir srcDir : Path) (fs : FS) (pre post : List Action) (d : Path)
    (h : (copyFilesRecur f fuel dstDir srcDir fs).trace = pre ++ Action.createDir d :: post) :
    ∃ rel, d = rel ++ dstDir ∧
      (rel = [] ∨ ∃ name up, rel = name :: up ∧ Action.createDir (up ++ dstDir) ∈ pre) := by
  have hc := copyFilesRecur_certified f fuel dstDir srcDir fs []
  rw [h] at hc
  obtain ⟨seen2, hseen, hc2⟩ := certified_split f dstDir srcDir [] fs pre _ _ hc
  obtain ⟨⟨rel, hd, hpar⟩, _⟩ := hc2
  refine ⟨rel, hd, ?_⟩
  rcases hpar with h0 | ⟨name, up, hrel, hup⟩
  · exact Or.inl h0
  · refine Or.inr ⟨name, up, hrel, ?_⟩
    rcases hseen _ hup with h1 | h1
    · cases h1
    · exact h1

/-- C8: in the trace of a call `copyFilesRecur(dstDir, srcDir, f)`, however it
ends, every file copy is preceded by the `createDirMust` of the directory of its
destination, and every `createDirMust` is on `dstDir` or is preceded by the
`createDirMust` of its parent directory; when the call returns, the mirror under
`dstDir` of `srcDir` and of every sub-directory of `srcDir`, at any depth, has had
its `createDirMust`, the one of a sub-directory after the one of its parent. -/
theorem copyFilesRecur_dirs_first (f : Option (String → Bool)) (fuel : Nat)
    (dstDir srcDir : Path) (fs : FS) :
    (∀ pre d s post,
      (copyFilesRecur f fuel dstDir srcDir fs).trace = pre ++ Action.copyFile d s :: post →
      ∃ name parent, d = name :: parent ∧ Action.createDir parent ∈ pre) ∧
    (∀ pre d post,
      (copyFilesRecur f fuel dstDir srcDir fs).trace = pre ++ Action.createDir d :: post →
      d = dstDir ∨ ∃ name parent, d = name :: parent ∧ Action.createDir parent ∈ pre) ∧
    ((copyFilesRecur f fuel dstDir srcDir fs).status = Status.ok →
      ∀ rel, SubDir fs srcDir rel →
        Action.createDir (rel ++ dstDir) ∈ (copyFilesRecur f fuel dstDir srcDir fs).trace) ∧
    ((copyFilesRecur f fuel dstDir srcDir fs).status = Status.ok →
      ∀ name up, SubDir fs srcDir (name :: up) →
        ∃ pre post, (copyFilesRecur f fuel dstDir srcDir fs).trace
            = pre ++ Action.createDir (name :: (up ++ dstDir)) :: post ∧
          Action.createDir (up ++ dstDir) ∈ pre) := by
  refine ⟨?_, ?_, fun hok rel hsub => copyFilesRecur_subdirs f fuel dstDir srcDir fs hok rel hsub,
    ?_⟩
  · intro pre d s post h
    obtain ⟨_, _, rel, name, hd, _, hmem⟩ :=
      copyFilesRecur_copy_facts f fuel dstDir srcDir fs pre post d s h
    exact ⟨name, rel ++ dstDir, hd, hmem⟩
  · intro pre d post h
    obtain ⟨rel, hd, hpar⟩ := copyFilesRecur_dir_facts f fuel dstDir srcDir fs pre post d h
    rcases hpar with h0 | ⟨name, up, hrel, hup⟩
    · left
      rw [hd, h0]
      rfl
    · exact Or.inr ⟨name, up ++ dstDir, by rw [hd, hrel]; rfl, hup⟩
  · intro hok name up hsub
    have hmem := copyFilesRecur_subdirs f fuel dstDir srcDir fs hok (name :: up) hsub
    obtain ⟨pre, post, hsplit⟩ := List.append_of_mem hmem
    refine ⟨pre, post, hsplit, ?_⟩
    obtain ⟨rel, hd, hpar⟩ := copyFilesRecur_dir_facts f fuel dstDir srcDir fs pre post _ hsplit
    have hrel : name :: up = rel := List.append_cancel_right hd
    rcases hpar with h0 | ⟨name2, up2, hrel2, hup⟩
    · rw [h0] at hrel
      cases hrel
    · rw [hrel2] at hrel
      cases hrel
      exact hup

theorem copyFilesRecur_dirs_first_witness :
    (copyFilesRecur (some shouldCopyImage) 3 ["covers", "www"] ["covers"] coversFS).status
        = Status.ok ∧
      SubDir coversFS ["covers"] ["sub"] ∧
      Action.createDir ["sub", "covers", "www"]
        ∈ (copyFilesRecur (some shouldCopyImage) 3 ["covers", "www"] ["covers"] coversFS).trace :=
  ⟨by decide,
    @SubDir.child coversFS ["covers"] "sub" []
      ((readDir_dir_iff coversFS ["covers"] "sub").2
        ⟨⟨["a.png", "a@2x.png", "sub"], by decide, by decide⟩, by decide⟩)
      (SubDir.self _),
    (copyFilesRecur_dirs_first (some shouldCopyImage) 3 ["covers", "www"] ["covers"] coversFS).2.2.1
      (by decide) ["sub"]
      (@SubDir.child coversFS ["covers"] "sub" []
        ((readDir_dir_iff coversFS ["covers"] "sub").2
          ⟨⟨["a.png", "a@2x.png", "sub"], by decide, by decide⟩, by decide⟩)
        (SubDir.self _))⟩

end GenBooks
